import Mathlib

/-!
Verification of the tinystomp STOMP frame parser and formatter.

The Python module is embedded shallowly: byte strings become `List Char`
(the module is Python 2, where `str` is a byte string), the `Parser`
object's mutable state becomes an explicit `Parser` record threaded
through the functions, raised exceptions become `Except` errors, and the
`while self._try_parse(): pass` loop becomes a fuel-indexed loop whose
fuel (one more than the buffer length) is always sufficient because every
successful extraction consumes at least one byte.
-/

namespace Tinystomp

/-- Byte strings of the Python 2 module are modelled as lists of chars. -/
abbrev B := List Char

/-- The frame-terminating NUL byte `'\x00'`. -/
def NUL : Char := Char.ofNat 0

/-!  ### `str.splitlines`

Python 2 `str.splitlines()` splits a byte string at `\n`, `\r\n` or a
lone `\r`, dropping the terminators and producing no trailing empty line
for a trailing terminator.  `''.splitlines() == []`.
-/

/-- Worker for `splitlines`: `acc` holds the current line reversed.
A terminator (`\n`, `\r\n`, or lone `\r`) ends the line; a terminator at
the very end of the string produces no trailing empty line. -/
def splitlinesGo (acc : B) : B → List B
  | [] => [acc.reverse]
  | '\n' :: [] => [acc.reverse]
  | '\n' :: c :: rest => acc.reverse :: splitlinesGo [] (c :: rest)
  | '\r' :: '\n' :: [] => [acc.reverse]
  | '\r' :: '\n' :: c :: rest => acc.reverse :: splitlinesGo [] (c :: rest)
  | '\r' :: [] => [acc.reverse]
  | '\r' :: c :: rest => acc.reverse :: splitlinesGo [] (c :: rest)
  | c :: rest => splitlinesGo (c :: acc) rest

/-- Python 2 `s.splitlines()`. -/
def splitlines : B → List B
  | [] => []
  | c :: rest => splitlinesGo [] (c :: rest)

/-!  ### The regex `\r?\n\r?\n` and `split_frame`

`_double_eol_pat = re.compile('\r?\n\r?\n')` matches two consecutive
end-of-line markers, each either `\n` or `\r\n`.  `finditer(s, start,
stop)` yields the leftmost non-overlapping matches lying entirely inside
`s[start:stop]`.
-/

/-- Match `\r?\n` at offset `i`, entirely before `stop`; returns the
offset just past the match.  The regex engine's greedy `\r?` never needs
backtracking here: it consumes `\r` exactly when `s[i] = '\r'`, and then
a `\n` must follow. -/
def eolAt (s : B) (i stop : Nat) : Option Nat :=
  if i < stop then
    match s[i]? with
    | some c =>
      if c = '\n' then some (i+1)
      else if c = '\r' then
        if i+1 < stop then
          match s[i+1]? with
          | some c2 => if c2 = '\n' then some (i+2) else none
          | none => none
        else none
      else none
    | none => none
  else none

/-- Match `\r?\n\r?\n` at offset `i`, entirely before `stop`. -/
def eol2At (s : B) (i stop : Nat) : Option Nat :=
  (eolAt s i stop).bind fun j => eolAt s j stop

/-- Scan from offset `i` for the leftmost match of `\r?\n\r?\n` before
`stop`; fuel is `stop - i`. -/
def findEol2Go (s : B) (stop : Nat) : Nat → Nat → Option (Nat × Nat)
  | 0, _ => none
  | fuel+1, i =>
    match eol2At s i stop with
    | some j => some (i, j)
    | none => findEol2Go s stop fuel (i+1)

/-- Leftmost match `(mstart, mend)` of `\r?\n\r?\n` inside `s[i:stop]`. -/
def findEol2 (s : B) (i stop : Nat) : Option (Nat × Nat) :=
  findEol2Go s stop (stop - i) i

/-- The loop of `split_frame`: repeatedly skip a pair of EOLs found at
the current start position; on the first match strictly after the start,
return the offset past it and the lines before it. -/
def splitFrameGo (s : B) (stop : Nat) : Nat → Nat → Nat × List B
  | 0, _ => (0, [])
  | fuel+1, start =>
    match findEol2 s start stop with
    | none => (0, [])
    | some (mstart, mend) =>
      if start = mstart then splitFrameGo s stop fuel mend
      else (mend, splitlines ((s.take mstart).drop start))

/-- `split_frame(s, start, stop)`: find and split all the command and
header lines from the first frame in `s[start:stop]`, returning the
first offset past the end of the last line and the lines; `(0, [])`
when no header-terminating blank line is found. -/
def split_frame (s : B) (start stop : Nat) : Nat × List B :=
  splitFrameGo s stop (stop + 1 - start) start

/-!  ### Header lines -/

/-- `line.partition(':')` restricted to what `_try_parse` uses: `none`
when the line has no colon, otherwise the text before and after the
first colon. -/
def splitColon : B → Option (B × B)
  | [] => none
  | c :: rest =>
    if c = ':' then some ([], rest)
    else (splitColon rest).map fun kv => (c :: kv.1, kv.2)

/-- First-colon-occurrence lookup in raw header lines (specification of
what first-wins header collection should produce). -/
def firstColonVal : List B → B → Option B
  | [], _ => none
  | l :: ls, k =>
    match splitColon l with
    | some kv => if kv.1 = k then some kv.2 else firstColonVal ls k
    | none => firstColonVal ls k

/-- Lookup in an insertion-ordered header association list (the header
dict). -/
def assocFind : List (B × B) → B → Option B
  | [], _ => none
  | kv :: t, k => if kv.1 = k then some kv.2 else assocFind t k

/-- `dict.setdefault(key, value)`: insert at the end only when the key
is absent. -/
def setdefault (hs : List (B × B)) (k v : B) : List (B × B) :=
  match assocFind hs k with
  | some _ => hs
  | none => hs ++ [(k, v)]

/-- `dict.get(key, default)`. -/
def getD (hs : List (B × B)) (k d : B) : B :=
  (assocFind hs k).getD d

/-- `dict[key] = value`: overwrite in place, or append when absent. -/
def dictSet : List (B × B) → B → B → List (B × B)
  | [], k, v => [(k, v)]
  | kv :: t, k, v => if kv.1 = k then (k, v) :: t else kv :: dictSet t k v

/-!  ### Errors

`ProtocolError` is the module's protocol-violation exception.  `int()`
on a malformed string raises `ValueError`, and `deque.popleft()` on an
empty deque raises `IndexError`; both are distinct exception classes. -/

inductive Err where
  | protocol (msg : String)
  | value
  | index
deriving DecidableEq

/-!  ### `int()` -/

/-- Python whitespace stripped by `int(str)`. -/
def isPySpace (c : Char) : Bool :=
  c = ' ' || c = '\t' || c = '\n' || c = '\r' || c = '\x0b' || c = '\x0c'

/-- Accumulate decimal digits; `none` on a non-digit. -/
def digitsGo : Nat → B → Option Nat
  | acc, [] => some acc
  | acc, c :: r =>
    if c.isDigit then digitsGo (acc * 10 + (c.toNat - '0'.toNat)) r else none

/-- A non-empty all-digit string's value. -/
def digitsVal : B → Option Nat
  | [] => none
  | c :: r => digitsGo 0 (c :: r)

/-- Strip Python whitespace from both ends. -/
def pyStrip (s : B) : B :=
  ((s.dropWhile isPySpace).reverse.dropWhile isPySpace).reverse

/-- Python 2 `int(s)`: optional surrounding whitespace, optional sign,
then a non-empty run of decimal digits; `none` models `ValueError`. -/
def pyInt (s : B) : Option Int :=
  match pyStrip s with
  | [] => none
  | c :: ds =>
    if c = '+' then (digitsVal ds).map fun n => (n : Int)
    else if c = '-' then (digitsVal ds).map fun n => -(n : Int)
    else (digitsVal (c :: ds)).map fun n => (n : Int)

/-- `str(n)` for a natural number: decimal digits, worker with fuel. -/
def pyStrGo : Nat → Nat → B
  | 0, _ => []
  | fuel+1, n =>
    if n < 10 then [Nat.digitChar n]
    else pyStrGo fuel (n / 10) ++ [Nat.digitChar (n % 10)]

/-- `str(n)` for a natural number. -/
def pyStr (n : Nat) : B := pyStrGo (n + 1) n

/-!  ### Formatters -/

/-- One emitted header line: `key.replace('_', '-') + ':' + value + '\n'`. -/
def renderHeader (k v : B) : B :=
  (k.map fun c => if c = '_' then '-' else c) ++ [':'] ++ v ++ ['\n']

/-- All header lines in dict insertion order. -/
def renderHeaders : List (B × B) → B
  | [] => []
  | kv :: t => renderHeader kv.1 kv.2 ++ renderHeaders t

/-- Python truthiness of the `body` argument (`None` or `''` are falsy). -/
def bodyTruthy : Option B → Bool
  | none => false
  | some [] => false
  | some (_ :: _) => true

/-- `_format(command, body, headers)`: the wire bytes of one frame. -/
def _format (command : B) (body : Option B) (headers : List (B × B)) : B :=
  command ++ ['\n']
    ++ (if bodyTruthy body then
          ("content-length:".toList ++ pyStr (body.getD []).length ++ ['\n'])
        else [])
    ++ renderHeaders headers
    ++ ['\n'] ++ body.getD [] ++ [NUL]

/-- `send(destination, body, **headers)`. -/
def send (destination : B) (body : Option B) (headers : List (B × B)) : B :=
  _format "SEND".toList body (dictSet headers "destination".toList destination)

/-!  ### Parser -/

/-- A parsed STOMP frame.  Every frame the parser enqueues has had its
body assigned (possibly the empty string). -/
structure Frame where
  command : Tinystomp.B
  headers : List (Tinystomp.B × Tinystomp.B)
  body : Tinystomp.B
deriving DecidableEq

/-- The mutable state of a `Parser` object: the accumulated buffer `s`,
the deque of completed frames, and `frame_eof` (`None` or the expected
end offset of a frame with a known content-length). -/
structure Parser where
  s : Tinystomp.B
  frames : List Frame
  frame_eof : Option Int
deriving DecidableEq

/-- A freshly constructed `Parser()`. -/
def emptyParser : Parser := ⟨[], [], none⟩

/-- The header key `'content-length'`. -/
def clKey : B := "content-length".toList

/-- Python `s.find(ch)`: index of the first occurrence, `none` for `-1`. -/
def pyFind (t : Char) : B → Option Nat
  | [] => none
  | c :: r => if c = t then some 0 else (pyFind t r).map (· + 1)

/-- The truthy-`frame_eof` guard `self.frame_eof and len(self.s) <
self.frame_eof` (an `int` `0` is falsy, and `len < 0` is false, so both
collapse to the same comparison). -/
def eofGuard : Option Int → Nat → Bool
  | none, _ => false
  | some e, len => decide ((len : Int) < e)

/-- `command = next(it); if not command: command = next(it)` with
`StopIteration` as `none`; the unconsumed rest are the header lines. -/
def extractCmd : List B → Option (B × List B)
  | [] => none
  | first :: rest =>
    if first = [] then
      match rest with
      | [] => none
      | c :: r => some (c, r)
    else some (first, rest)

/-- The header-collection loop: split each line at its first colon
(`ProtocolError` when there is none) and `setdefault` it into the dict,
so the first occurrence of a name wins. -/
def phGo (acc : List (B × B)) : List B → Except Err (List (B × B))
  | [] => .ok acc
  | l :: ls =>
    match splitColon l with
    | none => .error (.protocol "header without colon")
    | some kv => phGo (setdefault acc kv.1 kv.2) ls

/-- Build the header dict from the scanned header lines. -/
def parseHeaderLines (lines : List B) : Except Err (List (B × B)) :=
  phGo [] lines

/-- One `_try_parse` attempt.  Returns the updated state and whether a
frame was produced (the loop in `receive` continues only on `true`);
exceptions (`ProtocolError`, `ValueError` from `int()`) become errors. -/
def tryParse (p : Parser) : Except Err (Parser × Bool) :=
  match pyFind NUL p.s with
  | none => .ok (p, false)
  | some nulPos =>
    if eofGuard p.frame_eof p.s.length then .ok (p, false)
    else
      match split_frame p.s 0 nulPos with
      | (endPos, lines) =>
        match extractCmd lines with
        | none => .ok (p, false)
        | some cmdRest =>
          match parseHeaderLines cmdRest.2 with
          | .error e => .error e
          | .ok headers =>
            match pyInt (getD headers clKey ['0']) with
            | none => .error .value
            | some clength =>
              if clength = 0 ∨ (endPos : Int) + clength = (nulPos : Int) then
                .ok (⟨p.s.drop (nulPos+1),
                      p.frames ++ [⟨cmdRest.1, headers, (p.s.take nulPos).drop endPos⟩],
                      none⟩, true)
              else
                .ok ({ p with frame_eof := some ((endPos : Int) + clength) }, false)

/-- The `while self._try_parse(): pass` loop, with fuel.  Each `true`
step consumes at least one byte of the buffer, so fuel exceeding the
buffer length never runs out. -/
def parseLoopF : Nat → Parser → Except Err Parser
  | 0, p => .ok p
  | fuel+1, p =>
    match tryParse p with
    | .error e => .error e
    | .ok pr => if pr.2 then parseLoopF fuel pr.1 else .ok pr.1

/-- Run the parse loop to quiescence on the current buffer. -/
def run (p : Parser) : Except Err Parser :=
  parseLoopF (p.s.length + 1) p

/-- `receive(chunk)`: append the chunk to the buffer, then extract as
many complete frames as possible. -/
def receive (p : Parser) (c : B) : Except Err Parser :=
  run { p with s := p.s ++ c }

/-- A sequence of `receive` calls. -/
def receiveList (p : Parser) (chunks : List B) : Except Err Parser :=
  chunks.foldlM receive p

/-- A parser state with extra bytes appended to its buffer. -/
def bufApp (p : Parser) (b : B) : Parser :=
  { p with s := p.s ++ b }

/-- A blank line on the wire: a single end-of-line marker. -/
def isEolMarker (m : B) : Prop :=
  m = ['\n'] ∨ m = ['\r', '\n']

instance (m : B) : Decidable (isEolMarker m) := by
  unfold isEolMarker
  infer_instance

/-- `can_read()`: whether a completed frame is waiting. -/
def can_read (p : Parser) : Bool :=
  p.frames.length != 0

/-- `next()`: pop the oldest completed frame; `IndexError` (from
`deque.popleft()`) when the queue is empty. -/
def nextFrame (p : Parser) : Except Err (Frame × Parser) :=
  match p.frames with
  | [] => .error .index
  | f :: rest => .ok (f, { p with frames := rest })

/-- Repeatedly call `next()`, collecting the frames in pop order. -/
def drain : Nat → Parser → List Frame
  | 0, _ => []
  | k+1, p =>
    match nextFrame p with
    | .error _ => []
    | .ok fp => fp.1 :: drain k fp.2

/-!  ### Concrete wire inputs used by the claims -/

/-- A SEND frame whose 3-byte body `a\x00b` contains an embedded NUL,
announced by an accurate `content-length`. -/
def c1wire : B := "SEND\ncontent-length:3\ndestination:/x\n\na\x00b\x00".toList

/-- The state the parser reaches (and never leaves) on `c1wire`. -/
def c1stuck : Parser := ⟨c1wire, [], some 41⟩

/-- Wire input with a duplicated header name. -/
def c4wire : B := "SEND\r\nkey:value1\r\nkey:value2\r\n\r\n\x00".toList

/-- Wire input whose header block contains a colon-less line. -/
def c7wire : B := "SEND\ngarbage\n\n\x00".toList

/-- Wire input whose `content-length` value is not an integer. -/
def c10wire : B := "SEND\ncontent-length:abc\n\n\x00".toList

/-- A minimal header-less, body-less frame. -/
def demoWire : B := "CMD\n\n\x00".toList

/-- The frame `demoWire` parses to. -/
def demoFrame : Frame := ⟨"CMD".toList, [], []⟩

/-- The bytes of `send('/foo/bar', 'dave', a='b')`. -/
def c3bytes : B := send "/foo/bar".toList (some "dave".toList) [("a".toList, "b".toList)]

/-- The frame `c3bytes` parses back to (headers in parse order). -/
def c3frame : Frame :=
  ⟨"SEND".toList,
   [(clKey, "4".toList), ("a".toList, "b".toList),
    ("destination".toList, "/foo/bar".toList)],
   "dave".toList⟩

instance decEqExcept {ε α : Type} [DecidableEq ε] [DecidableEq α] :
    DecidableEq (Except ε α) := fun a b =>
  match a, b with
  | .error e, .error f =>
    if h : e = f then .isTrue (by rw [h]) else .isFalse (by intro hh; cases hh; exact h rfl)
  | .error _, .ok _ => .isFalse (by intro hh; cases hh)
  | .ok _, .error _ => .isFalse (by intro hh; cases hh)
  | .ok x, .ok y =>
    if h : x = y then .isTrue (by rw [h]) else .isFalse (by intro hh; cases hh; exact h rfl)

/-!  ### Sanity checks against the module's own test suite -/

example : split_frame "".toList 0 0 = (0, []) := by decide
example : split_frame "dave\n".toList 5 0 = (0, []) := by decide
example : split_frame "dave\n\n".toList 1 6 = (6, ["ave".toList]) := by decide
example : split_frame "\ndave\ndave\n\n".toList 0 12
    = (12, [[], "dave".toList, "dave".toList]) := by decide
example : split_frame "\n\r\n\r\n\n\r\ndave\n\n".toList 0 14
    = (14, [[], "dave".toList]) := by decide
example : split_frame "\n\n\r\n\r\n\n\r\ndave\n\n".toList 0 15
    = (15, ["dave".toList]) := by decide
example : _format "cmd".toList none [] = "cmd\n\n\x00".toList := by decide
example : _format "cmd".toList (some "dave".toList) [("a".toList, "b".toList)]
    = "cmd\ncontent-length:4\na:b\n\ndave\x00".toList := by decide
example :
    receive emptyParser "cmd\na:b\n\n\x00".toList
      = .ok ⟨[], [⟨"cmd".toList, [("a".toList, "b".toList)], []⟩], none⟩ := by decide

/-!  ## Lemmas about `pyFind` (`str.find`) -/

theorem pyFind_lt_length {t : Char} {s : B} {n : Nat} (h : pyFind t s = some n) :
    n < s.length := by
  induction s generalizing n with
  | nil => simp [pyFind] at h
  | cons c r ih =>
    by_cases hc : c = t
    · simp [pyFind, hc] at h
      simp [← h]
    · simp [pyFind, hc] at h
      obtain ⟨n', hn', rfl⟩ := h
      have := ih hn'
      simp
      omega

theorem pyFind_take_not_mem {t : Char} {s : B} {n : Nat} (h : pyFind t s = some n) :
    ∀ m, m ≤ n → t ∉ s.take m := by
  induction s generalizing n with
  | nil => intro m _; simp
  | cons c r ih =>
    intro m hm
    by_cases hc : c = t
    · simp [pyFind, hc] at h
      subst h
      interval_cases m
      simp
    · simp [pyFind, hc] at h
      obtain ⟨n', hn', rfl⟩ := h
      cases m with
      | zero => simp
      | succ m' =>
        simp only [List.take_succ_cons, List.mem_cons, not_or]
        exact ⟨fun e => hc e.symm, ih hn' m' (by omega)⟩

theorem pyFind_eq_none_iff {t : Char} {s : B} : pyFind t s = none ↔ t ∉ s := by
  induction s with
  | nil => simp [pyFind]
  | cons c r ih =>
    by_cases hc : c = t
    · subst hc
      simp [pyFind]
    · simp only [pyFind, if_neg hc, Option.map_eq_none', ih, List.mem_cons, not_or]
      constructor
      · intro h
        exact ⟨fun e => hc e.symm, h⟩
      · intro h
        exact h.2

theorem pyFind_append_left {t : Char} {a b : B} {n : Nat} (h : pyFind t a = some n) :
    pyFind t (a ++ b) = some n := by
  induction a generalizing n with
  | nil => simp [pyFind] at h
  | cons c r ih =>
    by_cases hc : c = t
    · simp [pyFind, hc] at h ⊢
      exact h
    · simp [pyFind, hc] at h ⊢
      obtain ⟨n', hn', rfl⟩ := h
      exact ⟨n', ih hn', rfl⟩

theorem pyFind_append_none {t : Char} {a b : B} (h : pyFind t a = none) :
    pyFind t (a ++ b) = (pyFind t b).map (· + a.length) := by
  induction a with
  | nil =>
    simp only [List.nil_append, List.length_nil]
    cases hb : pyFind t b <;> simp [hb]
  | cons c r ih =>
    have hc : ¬ c = t := by
      intro e
      simp [pyFind, e] at h
    simp only [pyFind, if_neg hc, Option.map_eq_none'] at h
    have goal1 : pyFind t ((c :: r) ++ b) = Option.map (fun x => x + 1) (pyFind t (r ++ b)) := by
      simp [pyFind, if_neg hc]
    rw [goal1, ih h]
    cases hb : pyFind t b
    · simp [hb]
    · simp only [hb, Option.map_some', List.length_cons, Option.some.injEq]
      omega

/-!  ## Lemmas about the header dict -/

theorem assocFind_append (xs ys : List (B × B)) (k : B) :
    assocFind (xs ++ ys) k = (assocFind xs k).or (assocFind ys k) := by
  induction xs with
  | nil => simp [assocFind]
  | cons kv t ih =>
    by_cases h : kv.1 = k <;> simp [assocFind, h, ih]

theorem assocFind_setdefault (acc : List (B × B)) (k' v k : B) :
    assocFind (setdefault acc k' v) k
      = (assocFind acc k).or (if k' = k then some v else none) := by
  unfold setdefault
  cases hf : assocFind acc k' with
  | some w =>
    by_cases hk : k' = k
    · subst hk
      rw [hf]
      simp
    · simp [hk]
  | none =>
    rw [assocFind_append]
    have : assocFind [(k', v)] k = if k' = k then some v else none := by
      by_cases hk : k' = k <;> simp [assocFind, hk]
    rw [this]

theorem phGo_lookup :
    ∀ (lines : List B) (acc hs : List (B × B)) (k : B),
      phGo acc lines = .ok hs →
      assocFind hs k = (assocFind acc k).or (firstColonVal lines k) := by
  intro lines
  induction lines with
  | nil =>
    intro acc hs k h
    simp only [phGo] at h
    cases h
    cases assocFind acc k <;> simp [firstColonVal]
  | cons l ls ih =>
    intro acc hs k h
    simp only [phGo] at h
    cases hsc : splitColon l with
    | none => rw [hsc] at h; cases h
    | some kv =>
      rw [hsc] at h
      rw [ih _ hs k h, assocFind_setdefault]
      simp only [firstColonVal, hsc]
      by_cases hk : kv.1 = k <;>
        cases hacc : assocFind acc k <;> simp [hk]

theorem phGo_colonless :
    ∀ (lines : List B) (acc : List (B × B)), (∃ l ∈ lines, splitColon l = none) →
      phGo acc lines = .error (.protocol "header without colon") := by
  intro lines
  induction lines with
  | nil => rintro acc ⟨l, h, _⟩; cases h
  | cons l ls ih =>
    rintro acc ⟨l', hl', hnone⟩
    cases hsc : splitColon l with
    | none => simp [phGo, hsc]
    | some kv =>
      simp only [phGo, hsc]
      apply ih
      rcases List.mem_cons.mp hl' with rfl | h
      · rw [hsc] at hnone; cases hnone
      · exact ⟨l', h, hnone⟩

theorem phGo_allcolon :
    ∀ (lines : List B) (acc : List (B × B)), (∀ l ∈ lines, (splitColon l).isSome) →
      ∃ hs, phGo acc lines = .ok hs := by
  intro lines
  induction lines with
  | nil => intro acc _; exact ⟨acc, rfl⟩
  | cons l ls ih =>
    intro acc h
    cases hsc : splitColon l with
    | none =>
      have := h l (by simp)
      rw [hsc] at this
      cases this
    | some kv =>
      simp only [phGo, hsc]
      exact ih _ fun l' hl' => h l' (List.mem_cons_of_mem _ hl')

/-!  ## Lemmas about `str(n)` and `int(s)` -/

theorem digitChar_isDigit {d : Nat} (h : d < 10) : (Nat.digitChar d).isDigit = true := by
  interval_cases d <;> decide

theorem digitChar_toNat {d : Nat} (h : d < 10) : (Nat.digitChar d).toNat = 48 + d := by
  interval_cases d <;> decide

theorem digitsGo_append (acc : Nat) (xs ys : B) :
    digitsGo acc (xs ++ ys)
      = match digitsGo acc xs with
        | some m => digitsGo m ys
        | none => none := by
  induction xs generalizing acc with
  | nil => simp [digitsGo]
  | cons c r ih =>
    cases hd : c.isDigit <;> simp [digitsGo, hd, ih]

theorem digitsGo_pyStrGo :
    ∀ (fuel n acc : Nat), n < fuel →
      digitsGo acc (pyStrGo fuel n) = some (acc * 10 ^ (pyStrGo fuel n).length + n) := by
  intro fuel
  induction fuel with
  | zero => intro n acc h; omega
  | succ fuel ih =>
    intro n acc h
    by_cases h10 : n < 10
    · simp only [pyStrGo, if_pos h10]
      simp [digitsGo, digitChar_isDigit h10, digitChar_toNat h10]
    · simp only [pyStrGo, if_neg h10]
      rw [digitsGo_append]
      have hrec : n / 10 < fuel := by
        have : n / 10 < n := Nat.div_lt_self (by omega) (by omega)
        omega
      rw [ih (n / 10) acc hrec]
      have hm : n % 10 < 10 := Nat.mod_lt _ (by omega)
      simp only [digitsGo, digitChar_isDigit hm, digitChar_toNat hm, if_pos,
        List.length_append, List.length_singleton,
        show '0'.toNat = 48 from by decide]
      congr 1
      have key : (acc * 10 ^ (pyStrGo fuel (n / 10)).length + n / 10) * 10 + (48 + n % 10 - 48)
          = acc * (10 ^ (pyStrGo fuel (n / 10)).length * 10) + (n / 10 * 10 + n % 10) := by
        have h48 : 48 + n % 10 - 48 = n % 10 := by omega
        rw [h48]
        ring
      rw [key, Nat.div_add_mod', ← pow_succ]

theorem pyStrGo_all_digits :
    ∀ (fuel n : Nat) (c : Char), c ∈ pyStrGo fuel n → c.isDigit = true := by
  intro fuel
  induction fuel with
  | zero => intro n c h; simp [pyStrGo] at h
  | succ fuel ih =>
    intro n c h
    by_cases h10 : n < 10
    · simp only [pyStrGo, if_pos h10, List.mem_singleton] at h
      subst h
      exact digitChar_isDigit h10
    · simp only [pyStrGo, if_neg h10, List.mem_append, List.mem_singleton] at h
      rcases h with h | rfl
      · exact ih _ _ h
      · exact digitChar_isDigit (Nat.mod_lt _ (by omega))

theorem pyStr_ne_nil (n : Nat) : pyStr n ≠ [] := by
  unfold pyStr pyStrGo
  by_cases h10 : n < 10 <;> simp [h10]

theorem isDigit_not_pyspace {c : Char} (h : c.isDigit = true) : isPySpace c = false := by
  have h1 : c ≠ ' ' := by rintro rfl; exact absurd h (by decide)
  have h2 : c ≠ '\t' := by rintro rfl; exact absurd h (by decide)
  have h3 : c ≠ '\n' := by rintro rfl; exact absurd h (by decide)
  have h4 : c ≠ '\r' := by rintro rfl; exact absurd h (by decide)
  have h5 : c ≠ '\x0b' := by rintro rfl; exact absurd h (by decide)
  have h6 : c ≠ '\x0c' := by rintro rfl; exact absurd h (by decide)
  simp [isPySpace, h1, h2, h3, h4, h5, h6]

theorem dropWhile_all_false {p : Char → Bool} :
    ∀ l : B, (∀ c ∈ l, p c = false) → l.dropWhile p = l := by
  intro l h
  cases l with
  | nil => rfl
  | cons c r => simp [List.dropWhile, h c (by simp)]

theorem pyStrip_digits (s : B) (h : ∀ c ∈ s, c.isDigit = true) : pyStrip s = s := by
  unfold pyStrip
  rw [dropWhile_all_false s fun c hc => isDigit_not_pyspace (h c hc)]
  rw [dropWhile_all_false s.reverse
      fun c hc => isDigit_not_pyspace (h c (List.mem_reverse.mp hc))]
  exact List.reverse_reverse s

theorem pyInt_pyStr (n : Nat) : pyInt (pyStr n) = some (n : Int) := by
  have hd : ∀ c ∈ pyStr n, c.isDigit = true := fun c hc => pyStrGo_all_digits _ _ _ hc
  have hstrip : pyStrip (pyStr n) = pyStr n := pyStrip_digits _ hd
  cases hs : pyStr n with
  | nil => exact absurd hs (pyStr_ne_nil n)
  | cons c ds =>
    have hcd : c.isDigit = true := hd c (by rw [hs]; simp)
    have hcp : c ≠ '+' := by rintro rfl; exact absurd hcd (by decide)
    have hcm : c ≠ '-' := by rintro rfl; exact absurd hcd (by decide)
    have hval : digitsVal (c :: ds) = some n := by
      have hgo := digitsGo_pyStrGo (n + 1) n 0 (by omega)
      unfold pyStr at hs
      rw [hs] at hgo
      simpa [digitsVal] using hgo
    rw [hs] at hstrip
    simp [pyInt, hs, hstrip, hcp, hcm, hval]

/-!  ## Claim C9: `can_read` and `next` -/

/-- Claim C9: `canRead()` is true exactly when the frame queue is
non-empty; `next()` on an empty queue fails with `IndexError`, which is
distinct from `ProtocolError`; `next()` on a non-empty queue removes and
returns the oldest queued frame. -/
theorem claim_C9 (p : Parser) :
    (can_read p = true ↔ p.frames ≠ [])
    ∧ (can_read p = false → nextFrame p = .error .index)
    ∧ (∀ msg, (Err.index : Err) ≠ .protocol msg)
    ∧ (∀ f rest, p.frames = f :: rest →
        can_read p = true ∧ nextFrame p = .ok (f, { p with frames := rest })) := by
  refine ⟨?_, ?_, ?_, ?_⟩
  · cases h : p.frames <;> simp [can_read, h]
  · intro h
    cases hf : p.frames with
    | nil => simp [nextFrame, hf]
    | cons f rest => simp [can_read, hf] at h
  · intro msg h
    cases h
  · intro f rest h
    constructor
    · simp [can_read, h]
    · simp [nextFrame, h]

/-- Witness for C9 at a concrete one-frame parser. -/
theorem claim_C9_witness :
    can_read ⟨[], [demoFrame], none⟩ = true
    ∧ nextFrame ⟨[], [demoFrame], none⟩ = .ok (demoFrame, ⟨[], [], none⟩) :=
  (claim_C9 ⟨[], [demoFrame], none⟩).2.2.2 demoFrame [] rfl

/-!  ## Claim C10: non-integer `content-length` raises `ValueError` -/

/-- Claim C10: a complete header block whose lines all have colons but
whose `content-length` value is not an integer makes `receive` fail with
`ValueError` (from `int()`), which is neither the protocol-violation
error nor the empty-queue error, and is not absorbed as incompleteness. -/
theorem claim_C10 :
    receive emptyParser c10wire = .error .value
    ∧ (∀ msg, (Err.value : Err) ≠ .protocol msg)
    ∧ (Err.value : Err) ≠ .index := by
  refine ⟨by decide, ?_, by decide⟩
  intro msg h
  cases h

/-!  ## Claim C1: embedded NUL bodies never complete (code bug) -/

/-- Claim C1 (refuting the claim as stated — code bug): on the wire
bytes of a frame whose 3-byte body `a\x00b` contains an embedded NUL and
whose `content-length` is accurate, a fresh parser enqueues *no* frame:
`_try_parse` always re-finds the *first* NUL (inside the body), sets
`frame_eof = 41` and gives up, and the state is a fixpoint, so the frame
is never produced no matter how often `receive` is called. -/
theorem claim_C1 :
    receive emptyParser c1wire = .ok c1stuck
    ∧ can_read c1stuck = false
    ∧ receive c1stuck [] = .ok c1stuck := by
  refine ⟨by decide, by decide, by decide⟩

/-!  ## Claim C4: duplicate header names keep the first value -/

/-- Claim C4: header collection uses `setdefault`, so for any header
block the value recorded for a name is the one from the *first* header
line carrying that name; concretely,
`SEND\r\nkey:value1\r\nkey:value2\r\n\r\n\x00` parses to a frame whose
headers hold only `key: value1`. -/
theorem claim_C4 :
    (∀ (lines : List B) (hs : List (B × B)) (k : B),
      parseHeaderLines lines = .ok hs → assocFind hs k = firstColonVal lines k)
    ∧ receive emptyParser c4wire
        = .ok ⟨[], [⟨"SEND".toList, [("key".toList, "value1".toList)], []⟩], none⟩ := by
  constructor
  · intro lines hs k h
    have := phGo_lookup lines [] hs k h
    simpa [assocFind] using this
  · decide

/-- Witness for C4 at a concrete duplicated header block. -/
theorem claim_C4_witness :
    assocFind [("key".toList, "value1".toList)] "key".toList
      = firstColonVal ["key:value1".toList, "key:value2".toList] "key".toList :=
  claim_C4.1 ["key:value1".toList, "key:value2".toList]
    [("key".toList, "value1".toList)] "key".toList (by decide)

/-!  ## Claim C7: colon-less header lines raise `ProtocolError` -/

/-- Claim C7: once a NUL and the header-terminating blank line have been
located, a colon-less header line makes `receive` fail immediately with
`ProtocolError` (not incompleteness, not a silent retry), while a header
block whose lines all contain colons never produces this error. -/
theorem claim_C7 :
    (∀ lines : List B, (∃ l ∈ lines, splitColon l = none) →
        parseHeaderLines lines = .error (.protocol "header without colon"))
    ∧ (∀ lines : List B, (∀ l ∈ lines, (splitColon l).isSome) →
        ∃ hs, parseHeaderLines lines = .ok hs)
    ∧ (∀ (s : B) (n endPos : Nat) (lines : List B) (cmd : B) (hlines : List B),
        pyFind NUL s = some n → split_frame s 0 n = (endPos, lines) →
        extractCmd lines = some (cmd, hlines) → (∃ l ∈ hlines, splitColon l = none) →
        receive emptyParser s = .error (.protocol "header without colon"))
    ∧ receive emptyParser c7wire = .error (.protocol "header without colon") := by
  refine ⟨fun lines h => phGo_colonless lines [] h,
          fun lines h => phGo_allcolon lines [] h, ?_, by decide⟩
  intro s n endPos lines cmd hlines h1 h2 h3 h4
  have herr : parseHeaderLines hlines = .error (.protocol "header without colon") :=
    phGo_colonless hlines [] h4
  show run { emptyParser with s := emptyParser.s ++ s } = _
  have hs : ({ emptyParser with s := emptyParser.s ++ s } : Parser) = ⟨s, [], none⟩ := by
    simp [emptyParser]
  rw [hs]
  show parseLoopF (s.length + 1) ⟨s, [], none⟩ = _
  simp only [parseLoopF, tryParse, h1, h2, h3, eofGuard, if_false, Bool.false_eq_true,
    parseHeaderLines] at herr ⊢
  rw [herr]

/-- Witness for C7 at the concrete colon-less header block. -/
theorem claim_C7_witness :
    parseHeaderLines ["garbage".toList]
      = .error (.protocol "header without colon") :=
  claim_C7.1 ["garbage".toList] ⟨"garbage".toList, by simp, by decide⟩

/-!  ## Claim C3: `send` round-trips, with automatic `content-length` -/

/-- Claim C3: `send('/foo/bar', 'dave', a='b')` parses back to command
`SEND`, body `dave` and exactly the headers `{content-length: 4, a: b,
destination: /foo/bar}`; in general a non-empty body makes `_format`
emit a `content-length` header carrying `str(len(body))` ahead of the
caller-supplied headers, and that emitted value always parses back to
the exact byte length of the body. -/
theorem claim_C3 :
    (receive emptyParser c3bytes = .ok ⟨[], [c3frame], none⟩
      ∧ c3frame.headers.Perm
          [("a".toList, "b".toList), ("destination".toList, "/foo/bar".toList),
           ("content-length".toList, "4".toList)])
    ∧ (∀ (cmd body : B) (hdrs : List (B × B)), body ≠ [] →
        _format cmd (some body) hdrs
          = cmd ++ ['\n'] ++ ("content-length:".toList ++ pyStr body.length ++ ['\n'])
            ++ renderHeaders hdrs ++ ['\n'] ++ body ++ [NUL])
    ∧ (∀ n : Nat, pyInt (pyStr n) = some (n : Int)) := by
  refine ⟨⟨by decide, by decide⟩, ?_, pyInt_pyStr⟩
  intro cmd body hdrs hne
  cases body with
  | nil => exact absurd rfl hne
  | cons c r => simp [_format, bodyTruthy, List.append_assoc]

/-- Witness for C3's layout clause at a concrete non-empty body. -/
theorem claim_C3_witness :
    _format "X".toList (some "d".toList) []
      = "X".toList ++ ['\n'] ++ ("content-length:".toList ++ pyStr "d".toList.length ++ ['\n'])
        ++ renderHeaders [] ++ ['\n'] ++ "d".toList ++ [NUL] :=
  claim_C3.2.1 "X".toList "d".toList [] (by decide)

/-!  ## Step equations for `tryParse`

One reduction lemma per control path of `_try_parse`, so that both
forward computation and inversion arguments can be carried out by
rewriting. -/

theorem tryParse_nonul {p : Parser} (hn : pyFind NUL p.s = none) :
    tryParse p = .ok (p, false) := by
  simp [tryParse, hn]

theorem tryParse_guard {p : Parser} {n : Nat} (hn : pyFind NUL p.s = some n)
    (hg : eofGuard p.frame_eof p.s.length = true) :
    tryParse p = .ok (p, false) := by
  simp [tryParse, hn, hg]

theorem tryParse_nocmd {p : Parser} {n e : Nat} {lines : List B}
    (hn : pyFind NUL p.s = some n) (hg : eofGuard p.frame_eof p.s.length = false)
    (hsp : split_frame p.s 0 n = (e, lines)) (hcmd : extractCmd lines = none) :
    tryParse p = .ok (p, false) := by
  simp [tryParse, hn, hg, hsp, hcmd]

theorem tryParse_hdrerr {p : Parser} {n e : Nat} {lines hlines : List B} {cmd : B} {er : Err}
    (hn : pyFind NUL p.s = some n) (hg : eofGuard p.frame_eof p.s.length = false)
    (hsp : split_frame p.s 0 n = (e, lines)) (hcmd : extractCmd lines = some (cmd, hlines))
    (hph : parseHeaderLines hlines = .error er) :
    tryParse p = .error er := by
  simp [tryParse, hn, hg, hsp, hcmd, hph]

theorem tryParse_interr {p : Parser} {n e : Nat} {lines hlines : List B} {cmd : B}
    {hs : List (B × B)}
    (hn : pyFind NUL p.s = some n) (hg : eofGuard p.frame_eof p.s.length = false)
    (hsp : split_frame p.s 0 n = (e, lines)) (hcmd : extractCmd lines = some (cmd, hlines))
    (hph : parseHeaderLines hlines = .ok hs) (hint : pyInt (getD hs clKey ['0']) = none) :
    tryParse p = .error .value := by
  simp [tryParse, hn, hg, hsp, hcmd, hph, hint]

theorem tryParse_success {p : Parser} {n e : Nat} {lines hlines : List B} {cmd : B}
    {hs : List (B × B)} {cl : Int}
    (hn : pyFind NUL p.s = some n) (hg : eofGuard p.frame_eof p.s.length = false)
    (hsp : split_frame p.s 0 n = (e, lines)) (hcmd : extractCmd lines = some (cmd, hlines))
    (hph : parseHeaderLines hlines = .ok hs) (hint : pyInt (getD hs clKey ['0']) = some cl)
    (hcl : cl = 0 ∨ (e : Int) + cl = (n : Int)) :
    tryParse p = .ok (⟨p.s.drop (n+1),
      p.frames ++ [⟨cmd, hs, (p.s.take n).drop e⟩], none⟩, true) := by
  simp [tryParse, hn, hg, hsp, hcmd, hph, hint, hcl]

theorem tryParse_eofset {p : Parser} {n e : Nat} {lines hlines : List B} {cmd : B}
    {hs : List (B × B)} {cl : Int}
    (hn : pyFind NUL p.s = some n) (hg : eofGuard p.frame_eof p.s.length = false)
    (hsp : split_frame p.s 0 n = (e, lines)) (hcmd : extractCmd lines = some (cmd, hlines))
    (hph : parseHeaderLines hlines = .ok hs) (hint : pyInt (getD hs clKey ['0']) = some cl)
    (hcl : ¬ (cl = 0 ∨ (e : Int) + cl = (n : Int))) :
    tryParse p = .ok ({ p with frame_eof := some ((e : Int) + cl) }, false) := by
  simp [tryParse, hn, hg, hsp, hcmd, hph, hint, hcl]

/-!  ## Bounds of the boundary scanner -/

theorem eolAt_bounds {s : B} {i stop j : Nat} (h : eolAt s i stop = some j) :
    i < j ∧ j ≤ stop := by
  unfold eolAt at h
  by_cases hi : i < stop
  · rw [if_pos hi] at h
    cases hgi : s[i]? with
    | none => simp [hgi] at h
    | some c =>
      simp only [hgi] at h
      by_cases hc1 : c = '\n'
      · simp only [if_pos hc1, Option.some.injEq] at h
        omega
      · simp only [if_neg hc1] at h
        by_cases hc2 : c = '\r'
        · simp only [if_pos hc2] at h
          by_cases hi1 : i + 1 < stop
          · simp only [if_pos hi1] at h
            cases hgi1 : s[i+1]? with
            | none => simp [hgi1] at h
            | some c2 =>
              simp only [hgi1] at h
              by_cases hc3 : c2 = '\n'
              · simp only [if_pos hc3, Option.some.injEq] at h
                omega
              · simp [if_neg hc3] at h
          · simp [if_neg hi1] at h
        · simp [if_neg hc2] at h
  · rw [if_neg hi] at h
    cases h

theorem eol2At_bounds {s : B} {i stop j : Nat} (h : eol2At s i stop = some j) :
    i + 2 ≤ j ∧ j ≤ stop := by
  unfold eol2At at h
  cases h1 : eolAt s i stop with
  | none => rw [h1] at h; cases h
  | some k =>
    rw [h1] at h
    have hb1 := eolAt_bounds h1
    have hb2 := eolAt_bounds h
    omega

theorem findEol2Go_bounds {s : B} {stop : Nat} :
    ∀ {fuel i ms me : Nat}, findEol2Go s stop fuel i = some (ms, me) →
      i ≤ ms ∧ ms + 2 ≤ me ∧ me ≤ stop := by
  intro fuel
  induction fuel with
  | zero => intro i ms me h; cases h
  | succ fuel ih =>
    intro i ms me h
    unfold findEol2Go at h
    cases h2 : eol2At s i stop with
    | some j =>
      rw [h2] at h
      cases h
      have := eol2At_bounds h2
      omega
    | none =>
      rw [h2] at h
      have := ih h
      omega

theorem findEol2_bounds {s : B} {i stop ms me : Nat} (h : findEol2 s i stop = some (ms, me)) :
    i ≤ ms ∧ ms + 2 ≤ me ∧ me ≤ stop :=
  findEol2Go_bounds h

theorem splitFrameGo_pos {s : B} {stop : Nat} :
    ∀ {fuel start e : Nat} {lines : List B},
      splitFrameGo s stop fuel start = (e, lines) → lines ≠ [] → 0 < e := by
  intro fuel
  induction fuel with
  | zero =>
    intro start e lines h hne
    cases h
    exact absurd rfl hne
  | succ fuel ih =>
    intro start e lines h hne
    unfold splitFrameGo at h
    cases hf : findEol2 s start stop with
    | none =>
      rw [hf] at h
      cases h
      exact absurd rfl hne
    | some pr =>
      obtain ⟨ms, me⟩ := pr
      simp only [hf] at h
      by_cases hst : start = ms
      · rw [if_pos hst] at h
        exact ih h hne
      · rw [if_neg hst] at h
        cases h
        have := findEol2_bounds hf
        omega

/-!  ## Appending to the buffer does not disturb the scanned prefix -/

theorem getElem?_append_lt {a b : B} {i : Nat} (h : i < a.length) : (a ++ b)[i]? = a[i]? := by
  rw [List.getElem?_append]
  rw [if_pos h]

theorem take_append_le {a b : B} {m : Nat} (h : m ≤ a.length) :
    (a ++ b).take m = a.take m := by
  rw [List.take_append_eq_append_take, Nat.sub_eq_zero_of_le h]
  simp

theorem drop_append_le {a b : B} {m : Nat} (h : m ≤ a.length) :
    (a ++ b).drop m = a.drop m ++ b := by
  rw [List.drop_append_eq_append_drop, Nat.sub_eq_zero_of_le h]
  simp

theorem drop_append_ge {a b : B} {m : Nat} (h : a.length ≤ m) :
    (a ++ b).drop m = b.drop (m - a.length) := by
  rw [List.drop_append_eq_append_drop, List.drop_eq_nil_of_le h]
  simp

theorem eolAt_append {a b : B} {i stop : Nat} (h : stop ≤ a.length) :
    eolAt (a ++ b) i stop = eolAt a i stop := by
  unfold eolAt
  by_cases hi : i < stop
  · rw [if_pos hi, if_pos hi, getElem?_append_lt (by omega)]
    cases ha : a[i]? with
    | none => simp [ha]
    | some c =>
      simp only [ha]
      by_cases hc1 : c = '\n'
      · simp [hc1]
      · by_cases hc2 : c = '\r'
        · simp only [if_neg hc1, if_pos hc2]
          by_cases hi1 : i + 1 < stop
          · rw [if_pos hi1, if_pos hi1, getElem?_append_lt (by omega)]
          · rw [if_neg hi1, if_neg hi1]
        · simp [hc1, hc2]
  · rw [if_neg hi, if_neg hi]

theorem eol2At_append {a b : B} {i stop : Nat} (h : stop ≤ a.length) :
    eol2At (a ++ b) i stop = eol2At a i stop := by
  unfold eol2At
  rw [eolAt_append h]
  cases eolAt a i stop with
  | none => rfl
  | some j => simp [eolAt_append h]

theorem findEol2Go_append {a b : B} {stop : Nat} (h : stop ≤ a.length) :
    ∀ fuel i, findEol2Go (a ++ b) stop fuel i = findEol2Go a stop fuel i := by
  intro fuel
  induction fuel with
  | zero => intro i; rfl
  | succ fuel ih =>
    intro i
    unfold findEol2Go
    rw [eol2At_append h]
    cases eol2At a i stop with
    | some j => rfl
    | none => simp only []; exact ih (i+1)

theorem findEol2_append {a b : B} {i stop : Nat} (h : stop ≤ a.length) :
    findEol2 (a ++ b) i stop = findEol2 a i stop :=
  findEol2Go_append h _ i

theorem splitFrameGo_append {a b : B} {stop : Nat} (h : stop ≤ a.length) :
    ∀ fuel start, splitFrameGo (a ++ b) stop fuel start = splitFrameGo a stop fuel start := by
  intro fuel
  induction fuel with
  | zero => intro start; rfl
  | succ fuel ih =>
    intro start
    unfold splitFrameGo
    rw [findEol2_append h]
    cases hf : findEol2 a start stop with
    | none => rfl
    | some pr =>
      obtain ⟨ms, me⟩ := pr
      simp only []
      by_cases hst : start = ms
      · simp only [hst, if_pos rfl]
        exact ih me
      · have hms : ms ≤ a.length := by
          have := findEol2_bounds hf
          omega
        rw [if_neg hst, if_neg hst, take_append_le hms]

theorem split_frame_append {a b : B} {start stop : Nat} (h : stop ≤ a.length) :
    split_frame (a ++ b) start stop = split_frame a start stop :=
  splitFrameGo_append h _ start

theorem eofGuard_append {e : Option Int} {a b : B} (h : eofGuard e a.length = false) :
    eofGuard e (a ++ b).length = false := by
  cases e with
  | none => rfl
  | some v =>
    simp only [eofGuard, decide_eq_false_iff_not, not_lt] at h ⊢
    simp only [List.length_append]
    push_cast
    omega

/-!  ## Inversion of `tryParse` -/

theorem tryParse_true_inv {p p' : Parser} (h : tryParse p = .ok (p', true)) :
    ∃ (n e : Nat) (lines : List B) (cmd : B) (hlines : List B)
      (hs : List (B × B)) (cl : Int),
      pyFind NUL p.s = some n ∧ eofGuard p.frame_eof p.s.length = false ∧
      split_frame p.s 0 n = (e, lines) ∧ extractCmd lines = some (cmd, hlines) ∧
      parseHeaderLines hlines = .ok hs ∧ pyInt (getD hs clKey ['0']) = some cl ∧
      (cl = 0 ∨ (e : Int) + cl = (n : Int)) ∧
      p' = ⟨p.s.drop (n+1), p.frames ++ [⟨cmd, hs, (p.s.take n).drop e⟩], none⟩ := by
  cases hn : pyFind NUL p.s with
  | none =>
    rw [tryParse_nonul hn] at h
    simp at h
  | some n =>
    cases hg : eofGuard p.frame_eof p.s.length with
    | true =>
      rw [tryParse_guard hn hg] at h
      simp at h
    | false =>
      obtain ⟨e, lines, hsp⟩ : ∃ e lines, split_frame p.s 0 n = (e, lines) := ⟨_, _, rfl⟩
      cases hcmd : extractCmd lines with
      | none =>
        rw [tryParse_nocmd hn hg hsp hcmd] at h
        simp at h
      | some cr =>
        obtain ⟨cmd, hlines⟩ := cr
        cases hph : parseHeaderLines hlines with
        | error er =>
          rw [tryParse_hdrerr hn hg hsp hcmd hph] at h
          simp at h
        | ok hs =>
          cases hint : pyInt (getD hs clKey ['0']) with
          | none =>
            rw [tryParse_interr hn hg hsp hcmd hph hint] at h
            simp at h
          | some cl =>
            by_cases hcl : cl = 0 ∨ (e : Int) + cl = (n : Int)
            · rw [tryParse_success hn hg hsp hcmd hph hint hcl] at h
              simp only [Except.ok.injEq, Prod.mk.injEq] at h
              exact ⟨n, e, lines, cmd, hlines, hs, cl, rfl, rfl, hsp, hcmd, hph, hint, hcl,
                h.1.symm⟩
            · rw [tryParse_eofset hn hg hsp hcmd hph hint hcl] at h
              simp at h

theorem tryParse_false_inv {p p' : Parser} (h : tryParse p = .ok (p', false)) :
    p'.s = p.s ∧ p'.frames = p.frames ∧
      (p' = p ∨ ∃ v : Int, p' = { p with frame_eof := some v }) := by
  cases hn : pyFind NUL p.s with
  | none =>
    rw [tryParse_nonul hn] at h
    simp only [Except.ok.injEq, Prod.mk.injEq] at h
    rw [← h.1]
    exact ⟨rfl, rfl, .inl rfl⟩
  | some n =>
    cases hg : eofGuard p.frame_eof p.s.length with
    | true =>
      rw [tryParse_guard hn hg] at h
      simp only [Except.ok.injEq, Prod.mk.injEq] at h
      rw [← h.1]
      exact ⟨rfl, rfl, .inl rfl⟩
    | false =>
      obtain ⟨e, lines, hsp⟩ : ∃ e lines, split_frame p.s 0 n = (e, lines) := ⟨_, _, rfl⟩
      cases hcmd : extractCmd lines with
      | none =>
        rw [tryParse_nocmd hn hg hsp hcmd] at h
        simp only [Except.ok.injEq, Prod.mk.injEq] at h
        rw [← h.1]
        exact ⟨rfl, rfl, .inl rfl⟩
      | some cr =>
        obtain ⟨cmd, hlines⟩ := cr
        cases hph : parseHeaderLines hlines with
        | error er =>
          rw [tryParse_hdrerr hn hg hsp hcmd hph] at h
          simp at h
        | ok hs =>
          cases hint : pyInt (getD hs clKey ['0']) with
          | none =>
            rw [tryParse_interr hn hg hsp hcmd hph hint] at h
            simp at h
          | some cl =>
            by_cases hcl : cl = 0 ∨ (e : Int) + cl = (n : Int)
            · rw [tryParse_success hn hg hsp hcmd hph hint hcl] at h
              simp at h
            · rw [tryParse_eofset hn hg hsp hcmd hph hint hcl] at h
              simp only [Except.ok.injEq, Prod.mk.injEq] at h
              rw [← h.1]
              exact ⟨rfl, rfl, .inr ⟨(e : Int) + cl, rfl⟩⟩

theorem tryParse_err_inv {p : Parser} {er : Err} (h : tryParse p = .error er) :
    ∃ (n e : Nat) (lines : List B) (cmd : B) (hlines : List B),
      pyFind NUL p.s = some n ∧ eofGuard p.frame_eof p.s.length = false ∧
      split_frame p.s 0 n = (e, lines) ∧ extractCmd lines = some (cmd, hlines) ∧
      (parseHeaderLines hlines = .error er ∨
        ∃ hs, parseHeaderLines hlines = .ok hs
          ∧ pyInt (getD hs clKey ['0']) = none ∧ er = .value) := by
  cases hn : pyFind NUL p.s with
  | none =>
    rw [tryParse_nonul hn] at h
    simp at h
  | some n =>
    cases hg : eofGuard p.frame_eof p.s.length with
    | true =>
      rw [tryParse_guard hn hg] at h
      simp at h
    | false =>
      obtain ⟨e, lines, hsp⟩ : ∃ e lines, split_frame p.s 0 n = (e, lines) := ⟨_, _, rfl⟩
      cases hcmd : extractCmd lines with
      | none =>
        rw [tryParse_nocmd hn hg hsp hcmd] at h
        simp at h
      | some cr =>
        obtain ⟨cmd, hlines⟩ := cr
        cases hph : parseHeaderLines hlines with
        | error er' =>
          rw [tryParse_hdrerr hn hg hsp hcmd hph] at h
          simp only [Except.error.injEq] at h
          subst h
          exact ⟨n, e, lines, cmd, hlines, rfl, rfl, hsp, hcmd, .inl hph⟩
        | ok hs =>
          cases hint : pyInt (getD hs clKey ['0']) with
          | none =>
            rw [tryParse_interr hn hg hsp hcmd hph hint] at h
            simp only [Except.error.injEq] at h
            subst h
            exact ⟨n, e, lines, cmd, hlines, rfl, rfl, hsp, hcmd, .inr ⟨hs, hph, hint, rfl⟩⟩
          | some cl =>
            by_cases hcl : cl = 0 ∨ (e : Int) + cl = (n : Int)
            · rw [tryParse_success hn hg hsp hcmd hph hint hcl] at h
              simp at h
            · rw [tryParse_eofset hn hg hsp hcmd hph hint hcl] at h
              simp at h

/-!  ## `tryParse` commutes with appending bytes to the buffer -/

theorem bufApp_guard {p : Parser} {b : B}
    (hg : eofGuard p.frame_eof p.s.length = false) :
    eofGuard (bufApp p b).frame_eof (bufApp p b).s.length = false := by
  simp only [bufApp]
  exact eofGuard_append hg

theorem bufApp_pyFind {p : Parser} {b : B} {n : Nat} (hn : pyFind NUL p.s = some n) :
    pyFind NUL (bufApp p b).s = some n := by
  simp only [bufApp]
  exact pyFind_append_left hn

theorem bufApp_split {p : Parser} {b : B} {n e : Nat} {lines : List B}
    (hn : pyFind NUL p.s = some n) (hsp : split_frame p.s 0 n = (e, lines)) :
    split_frame (bufApp p b).s 0 n = (e, lines) := by
  simp only [bufApp]
  rw [split_frame_append (le_of_lt (pyFind_lt_length hn))]
  exact hsp

theorem tryParse_append_err {p : Parser} {er : Err} (b : B) (h : tryParse p = .error er) :
    tryParse (bufApp p b) = .error er := by
  obtain ⟨n, e, lines, cmd, hlines, hn, hg, hsp, hcmd, hrest⟩ := tryParse_err_inv h
  rcases hrest with herr | ⟨hs, hok, hint, rfl⟩
  · exact tryParse_hdrerr (bufApp_pyFind hn) (bufApp_guard hg) (bufApp_split hn hsp)
      hcmd herr
  · exact tryParse_interr (bufApp_pyFind hn) (bufApp_guard hg) (bufApp_split hn hsp)
      hcmd hok hint

theorem tryParse_append_true {p p' : Parser} (b : B) (h : tryParse p = .ok (p', true)) :
    tryParse (bufApp p b) = .ok (bufApp p' b, true) := by
  obtain ⟨n, e, lines, cmd, hlines, hs, cl, hn, hg, hsp, hcmd, hph, hint, hcl, rfl⟩ :=
    tryParse_true_inv h
  have hlt : n < p.s.length := pyFind_lt_length hn
  rw [tryParse_success (bufApp_pyFind hn) (bufApp_guard hg) (bufApp_split hn hsp)
    hcmd hph hint hcl]
  have h1 : (p.s ++ b).take n = p.s.take n := take_append_le (le_of_lt hlt)
  have h2 : (p.s ++ b).drop (n+1) = p.s.drop (n+1) ++ b := drop_append_le (by omega)
  simp [bufApp, h1, h2]

theorem tryParse_append_false {p p' : Parser} (b : B) (h : tryParse p = .ok (p', false)) :
    p' = p ∨ (tryParse (bufApp p b) = .ok (bufApp p' b, false)
      ∧ tryParse (bufApp p' b) = .ok (bufApp p' b, false)) := by
  cases hn : pyFind NUL p.s with
  | none =>
    rw [tryParse_nonul hn] at h
    simp only [Except.ok.injEq, Prod.mk.injEq] at h
    exact .inl h.1.symm
  | some n =>
    cases hg : eofGuard p.frame_eof p.s.length with
    | true =>
      rw [tryParse_guard hn hg] at h
      simp only [Except.ok.injEq, Prod.mk.injEq] at h
      exact .inl h.1.symm
    | false =>
      obtain ⟨e, lines, hsp⟩ : ∃ e lines, split_frame p.s 0 n = (e, lines) := ⟨_, _, rfl⟩
      cases hcmd : extractCmd lines with
      | none =>
        rw [tryParse_nocmd hn hg hsp hcmd] at h
        simp only [Except.ok.injEq, Prod.mk.injEq] at h
        exact .inl h.1.symm
      | some cr =>
        obtain ⟨cmd, hlines⟩ := cr
        cases hph : parseHeaderLines hlines with
        | error er =>
          rw [tryParse_hdrerr hn hg hsp hcmd hph] at h
          simp at h
        | ok hs =>
          cases hint : pyInt (getD hs clKey ['0']) with
          | none =>
            rw [tryParse_interr hn hg hsp hcmd hph hint] at h
            simp at h
          | some cl =>
            by_cases hcl : cl = 0 ∨ (e : Int) + cl = (n : Int)
            · rw [tryParse_success hn hg hsp hcmd hph hint hcl] at h
              simp at h
            · rw [tryParse_eofset hn hg hsp hcmd hph hint hcl] at h
              simp only [Except.ok.injEq, Prod.mk.injEq] at h
              rw [← h.1]
              refine .inr ⟨?_, ?_⟩
              · rw [tryParse_eofset (bufApp_pyFind hn) (bufApp_guard hg)
                  (bufApp_split hn hsp) hcmd hph hint hcl]
                simp [bufApp]
              · have hb' : bufApp { p with frame_eof := some ((e : Int) + cl) } b
                    = ⟨p.s ++ b, p.frames, some ((e : Int) + cl)⟩ := by
                  simp [bufApp]
                have hn2 : pyFind NUL (⟨p.s ++ b, p.frames, some ((e : Int) + cl)⟩ : Parser).s
                    = some n := pyFind_append_left hn
                cases hg2 : eofGuard (some ((e : Int) + cl) : Option Int) (p.s ++ b).length with
                | true =>
                  rw [hb', tryParse_guard hn2 hg2]
                | false =>
                  rw [hb', tryParse_eofset hn2 hg2 (by
                      show split_frame (p.s ++ b) 0 n = (e, lines)
                      rw [split_frame_append (le_of_lt (pyFind_lt_length hn))]
                      exact hsp)
                    hcmd hph hint hcl]

theorem tryParse_shrink {p p' : Parser} (h : tryParse p = .ok (p', true)) :
    p'.s.length < p.s.length := by
  obtain ⟨n, e, lines, cmd, hlines, hs, cl, hn, _, _, _, _, _, _, rfl⟩ :=
    tryParse_true_inv h
  have := pyFind_lt_length hn
  simp only [List.length_drop]
  omega

/-!  ## The parse loop: fuel irrelevance, single steps, stability -/

theorem parseLoopF_irrel :
    ∀ (fuel : Nat) (p : Parser), p.s.length < fuel → parseLoopF fuel p = run p := by
  intro fuel
  induction fuel using Nat.strong_induction_on with
  | _ fuel ih =>
    intro p hf
    cases fuel with
    | zero => omega
    | succ fuel =>
      show parseLoopF (fuel + 1) p = parseLoopF (p.s.length + 1) p
      simp only [parseLoopF]
      cases ht : tryParse p with
      | error e => rfl
      | ok pr =>
        obtain ⟨p1, prog⟩ := pr
        cases prog with
        | false => rfl
        | true =>
          simp only [if_pos rfl]
          have hsh := tryParse_shrink ht
          have e1 : parseLoopF fuel p1 = run p1 := ih fuel (by omega) p1 (by omega)
          have e2 : parseLoopF p.s.length p1 = run p1 := ih p.s.length (by omega) p1 (by omega)
          rw [e1, e2]

theorem run_step_err {p : Parser} {er : Err} (ht : tryParse p = .error er) :
    run p = .error er := by
  simp [run, parseLoopF, ht]

theorem run_step_false {p p' : Parser} (ht : tryParse p = .ok (p', false)) :
    run p = .ok p' := by
  simp [run, parseLoopF, ht]

theorem run_step_true {p p' : Parser} (ht : tryParse p = .ok (p', true)) :
    run p = run p' := by
  show parseLoopF (p.s.length + 1) p = run p'
  simp only [parseLoopF, ht, if_pos rfl]
  exact parseLoopF_irrel _ _ (tryParse_shrink ht)

theorem run_stable : ∀ (p q : Parser), run p = .ok q → tryParse q = .ok (q, false) := by
  have main : ∀ (L : Nat) (p q : Parser), p.s.length ≤ L →
      run p = .ok q → tryParse q = .ok (q, false) := by
    intro L
    induction L using Nat.strong_induction_on with
    | _ L ih =>
      intro p q hL h
      cases ht : tryParse p with
      | error er => rw [run_step_err ht] at h; cases h
      | ok pr =>
        obtain ⟨p1, prog⟩ := pr
        cases prog with
        | true =>
          rw [run_step_true ht] at h
          have := tryParse_shrink ht
          exact ih p1.s.length (by omega) p1 q le_rfl h
        | false =>
          rw [run_step_false ht] at h
          cases h
          rcases tryParse_append_false [] ht with rfl | ⟨_, h2⟩
          · exact ht
          · have hb : bufApp q [] = q := by simp [bufApp]
            rw [hb] at h2
            exact h2
  intro p q h
  exact main p.s.length p q le_rfl h

/-!  ## `receive` distributes over concatenation -/

theorem run_append : ∀ (p : Parser) (b : B),
    run (bufApp p b) = (run p).bind fun q => run (bufApp q b) := by
  have main : ∀ (L : Nat) (p : Parser) (b : B), p.s.length ≤ L →
      run (bufApp p b) = (run p).bind fun q => run (bufApp q b) := by
    intro L
    induction L using Nat.strong_induction_on with
    | _ L ih =>
      intro p b hL
      cases ht : tryParse p with
      | error er =>
        rw [run_step_err ht, run_step_err (tryParse_append_err b ht)]
        rfl
      | ok pr =>
        obtain ⟨p1, prog⟩ := pr
        cases prog with
        | true =>
          rw [run_step_true ht, run_step_true (tryParse_append_true b ht)]
          have := tryParse_shrink ht
          exact ih p1.s.length (by omega) p1 b le_rfl
        | false =>
          rw [run_step_false ht]
          rcases tryParse_append_false b ht with rfl | ⟨h1, h2⟩
          · rfl
          · rw [run_step_false h1]
            show Except.ok (bufApp p1 b) = run (bufApp p1 b)
            rw [run_step_false h2]
  intro p b
  exact main p.s.length p b le_rfl

theorem receive_append (p : Parser) (a b : B) :
    receive p (a ++ b) = (receive p a).bind fun q => receive q b := by
  show run { p with s := p.s ++ (a ++ b) } = _
  have h1 : ({ p with s := p.s ++ (a ++ b) } : Parser) = bufApp (bufApp p a) b := by
    simp [bufApp, List.append_assoc]
  rw [h1, run_append]
  rfl

theorem receiveList_join :
    ∀ (chunks : List B) (q : Parser), tryParse q = .ok (q, false) →
      receiveList q chunks = receive q chunks.join := by
  intro chunks
  induction chunks with
  | nil =>
    intro q hq
    show Except.ok q = receive q []
    have hb : ({ q with s := q.s ++ [] } : Parser) = q := by simp
    show Except.ok q = run { q with s := q.s ++ [] }
    rw [hb, run_step_false hq]
  | cons c cs ih =>
    intro q hq
    show (receive q c).bind (fun q' => receiveList q' cs) = receive q (c ++ cs.join)
    rw [receive_append]
    cases hr : receive q c with
    | error er => rfl
    | ok q' =>
      have hst : tryParse q' = .ok (q', false) := run_stable _ _ hr
      simp only [Except.bind]
      exact ih q' hst

/-!  ## Claim C2: fragmentation invariance -/

/-- Claim C2: delivering any byte string to a fresh parser in any
partition into consecutive chunks (in particular any two-way split)
leaves the parser in exactly the state — same queued frames, same
residual buffer — as delivering it whole. -/
theorem claim_C2 :
    (∀ chunks : List B, receiveList emptyParser chunks = receive emptyParser chunks.join)
    ∧ (∀ (F : B) (i : Nat),
        (receive emptyParser (F.take i)).bind (fun q => receive q (F.drop i))
          = receive emptyParser F) := by
  constructor
  · intro chunks
    exact receiveList_join chunks emptyParser (by decide)
  · intro F i
    rw [← receive_append]
    rw [List.take_append_drop]

/-!  ## The queue only grows by appending: frame equivariance -/

theorem tryParse_framesEq (p : Parser) (q : List Frame) :
    tryParse ⟨p.s, q ++ p.frames, p.frame_eof⟩
      = (tryParse p).map fun pr =>
          (⟨pr.1.s, q ++ pr.1.frames, pr.1.frame_eof⟩, pr.2) := by
  cases hn : pyFind NUL p.s with
  | none =>
    rw [tryParse_nonul (p := ⟨p.s, q ++ p.frames, p.frame_eof⟩) hn, tryParse_nonul hn]
    rfl
  | some n =>
    cases hg : eofGuard p.frame_eof p.s.length with
    | true =>
      rw [tryParse_guard (p := ⟨p.s, q ++ p.frames, p.frame_eof⟩) hn hg,
        tryParse_guard hn hg]
      rfl
    | false =>
      obtain ⟨e0, lines, hsp⟩ : ∃ e0 lines, split_frame p.s 0 n = (e0, lines) := ⟨_, _, rfl⟩
      cases hcmd : extractCmd lines with
      | none =>
        rw [tryParse_nocmd (p := ⟨p.s, q ++ p.frames, p.frame_eof⟩) hn hg hsp hcmd,
          tryParse_nocmd hn hg hsp hcmd]
        rfl
      | some cr =>
        obtain ⟨cmd, hlines⟩ := cr
        cases hph : parseHeaderLines hlines with
        | error er =>
          rw [tryParse_hdrerr (p := ⟨p.s, q ++ p.frames, p.frame_eof⟩) hn hg hsp hcmd hph,
            tryParse_hdrerr hn hg hsp hcmd hph]
          rfl
        | ok hs =>
          cases hint : pyInt (getD hs clKey ['0']) with
          | none =>
            rw [tryParse_interr (p := ⟨p.s, q ++ p.frames, p.frame_eof⟩) hn hg hsp hcmd hph hint,
              tryParse_interr hn hg hsp hcmd hph hint]
            rfl
          | some cl =>
            by_cases hcl : cl = 0 ∨ (e0 : Int) + cl = (n : Int)
            · rw [tryParse_success (p := ⟨p.s, q ++ p.frames, p.frame_eof⟩) hn hg hsp hcmd
                hph hint hcl, tryParse_success hn hg hsp hcmd hph hint hcl]
              simp [Except.map, List.append_assoc]
            · rw [tryParse_eofset (p := ⟨p.s, q ++ p.frames, p.frame_eof⟩) hn hg hsp hcmd
                hph hint hcl, tryParse_eofset hn hg hsp hcmd hph hint hcl]
              rfl

theorem parseLoopF_framesEq :
    ∀ (fuel : Nat) (p : Parser) (q : List Frame),
      parseLoopF fuel ⟨p.s, q ++ p.frames, p.frame_eof⟩
        = (parseLoopF fuel p).map fun r => ⟨r.s, q ++ r.frames, r.frame_eof⟩ := by
  intro fuel
  induction fuel with
  | zero => intro p q; rfl
  | succ fuel ih =>
    intro p q
    simp only [parseLoopF]
    rw [tryParse_framesEq p q]
    cases ht : tryParse p with
    | error er => rfl
    | ok pr =>
      obtain ⟨p1, prog⟩ := pr
      cases prog with
      | false => rfl
      | true =>
        simp only [Except.map, if_pos rfl]
        exact ih p1 q

theorem receive_framesEq (s c : B) (q fr : List Frame) (e : Option Int) :
    receive ⟨s, q ++ fr, e⟩ c
      = (receive ⟨s, fr, e⟩ c).map fun r => ⟨r.s, q ++ r.frames, r.frame_eof⟩ := by
  show parseLoopF ((s ++ c).length + 1) ⟨s ++ c, q ++ fr, e⟩
    = (parseLoopF ((s ++ c).length + 1) ⟨s ++ c, fr, e⟩).map _
  exact parseLoopF_framesEq ((s ++ c).length + 1) ⟨s ++ c, fr, e⟩ q

/-!  ## Claim C6: multi-frame batches arrive in FIFO order -/

/-- Claim C6: a single `receive` of several concatenated valid frames
enqueues all of them, and successive `next()` calls return them in
exactly the order they appeared on the wire. -/
theorem claim_C6 :
    ∀ (Fs : List B) (fs : List Frame),
      List.Forall₂ (fun F f => receive emptyParser F = .ok ⟨[], [f], none⟩) Fs fs →
      receive emptyParser Fs.join = .ok ⟨[], fs, none⟩
      ∧ drain fs.length ⟨[], fs, none⟩ = fs := by
  have drain_all : ∀ fs : List Frame, drain fs.length ⟨[], fs, none⟩ = fs := by
    intro fs
    induction fs with
    | nil => rfl
    | cons f rest ih =>
      show f :: drain rest.length ⟨[], rest, none⟩ = f :: rest
      rw [ih]
  intro Fs fs h
  refine ⟨?_, drain_all fs⟩
  induction h with
  | nil => decide
  | @cons F f Fs' fs' hF _ ih =>
    show receive emptyParser (F ++ Fs'.join) = _
    rw [receive_append, hF]
    show receive ⟨[], [f], none⟩ Fs'.join = .ok ⟨[], f :: fs', none⟩
    have heq : receive (⟨[], [f] ++ [], none⟩ : Parser) Fs'.join
        = (receive ⟨[], [], none⟩ Fs'.join).map fun r => ⟨r.s, [f] ++ r.frames, r.frame_eof⟩ :=
      receive_framesEq [] Fs'.join [f] [] none
    simp only [List.append_nil] at heq
    rw [heq]
    rw [show (⟨[], [], none⟩ : Parser) = emptyParser from rfl, ih]
    rfl

/-- Witness for C6 at two concatenated minimal frames. -/
theorem claim_C6_witness :
    receive emptyParser ([demoWire, demoWire] : List B).join
        = .ok ⟨[], [demoFrame, demoFrame], none⟩
      ∧ drain [demoFrame, demoFrame].length ⟨[], [demoFrame, demoFrame], none⟩
        = [demoFrame, demoFrame] :=
  claim_C6 [demoWire, demoWire] [demoFrame, demoFrame]
    (List.Forall₂.cons (by decide) (List.Forall₂.cons (by decide) List.Forall₂.nil))

/-!  ## Inverting a clean single-frame parse -/

theorem parseLoopF_frames_le :
    ∀ (fuel : Nat) (p q : Parser), parseLoopF fuel p = .ok q →
      p.frames.length ≤ q.frames.length := by
  intro fuel
  induction fuel with
  | zero =>
    intro p q h
    cases h
    exact le_rfl
  | succ fuel ih =>
    intro p q h
    simp only [parseLoopF] at h
    cases ht : tryParse p with
    | error er => rw [ht] at h; cases h
    | ok pr =>
      obtain ⟨p1, prog⟩ := pr
      rw [ht] at h
      cases prog with
      | false =>
        simp only [Bool.false_eq_true, if_false] at h
        cases h
        obtain ⟨_, hfr, _⟩ := tryParse_false_inv ht
        rw [hfr]
      | true =>
        simp only [if_pos rfl] at h
        have h1 := ih p1 q h
        obtain ⟨n, e, lines, cmd, hlines, hs, cl, _, _, _, _, _, _, _, rfl⟩ :=
          tryParse_true_inv ht
        simp only [List.length_append, List.length_singleton] at h1
        omega

theorem run_no_progress {p q : Parser} (h : run p = .ok q)
    (hlen : q.frames.length ≤ p.frames.length) : tryParse p = .ok (q, false) := by
  cases ht : tryParse p with
  | error er => rw [run_step_err ht] at h; cases h
  | ok pr =>
    obtain ⟨p1, prog⟩ := pr
    cases prog with
    | true =>
      rw [run_step_true ht] at h
      have h1 := parseLoopF_frames_le _ _ _ h
      obtain ⟨n, e, lines, cmd, hlines, hs, cl, _, _, _, _, _, _, _, rfl⟩ :=
        tryParse_true_inv ht
      simp only [List.length_append, List.length_singleton] at h1
      omega
    | false =>
      rw [run_step_false ht] at h
      cases h
      rfl

/-- A byte string that a fresh parser turns into exactly one frame with
nothing left over has its unique NUL as its very last byte, and the
frame is assembled from its boundary-scanner data. -/
theorem valid_inv {F : B} {f : Frame}
    (hF : receive emptyParser F = .ok ⟨[], [f], none⟩) :
    ∃ (n e : Nat) (lines : List B) (cmd : B) (hlines : List B)
      (hs : List (B × B)) (cl : Int),
      pyFind NUL F = some n ∧ n + 1 = F.length ∧
      split_frame F 0 n = (e, lines) ∧ extractCmd lines = some (cmd, hlines) ∧
      parseHeaderLines hlines = .ok hs ∧ pyInt (getD hs clKey ['0']) = some cl ∧
      (cl = 0 ∨ (e : Int) + cl = (n : Int)) ∧
      f = ⟨cmd, hs, (F.take n).drop e⟩ := by
  have hrun : run ⟨F, [], none⟩ = .ok ⟨[], [f], none⟩ := hF
  cases ht : tryParse (⟨F, [], none⟩ : Parser) with
  | error er => rw [run_step_err ht] at hrun; cases hrun
  | ok pr =>
    obtain ⟨p1, prog⟩ := pr
    cases prog with
    | false =>
      rw [run_step_false ht] at hrun
      cases hrun
      obtain ⟨_, hfr, _⟩ := tryParse_false_inv ht
      simp at hfr
    | true =>
      obtain ⟨n, e, lines, cmd, hlines, hs, cl, hn, hg, hsp, hcmd, hph, hint, hcl, hp1⟩ :=
        tryParse_true_inv ht
      rw [run_step_true ht] at hrun
      subst hp1
      have hnp := run_no_progress hrun (by simp)
      obtain ⟨hs_eq, hfr_eq, _⟩ := tryParse_false_inv hnp
      have hlen : n + 1 = F.length := by
        have h2 : n < F.length := pyFind_lt_length hn
        have h4 : F.drop (n + 1) = [] := hs_eq.symm
        rw [List.drop_eq_nil_iff_le] at h4
        omega
      have hf_eq : f = ⟨cmd, hs, (F.take n).drop e⟩ := by
        simpa using hfr_eq
      exact ⟨n, e, lines, cmd, hlines, hs, cl, hn, hlen, hsp, hcmd, hph, hint, hcl, hf_eq⟩

/-!  ## Claim C8: incompleteness is absorbed silently -/

/-- Claim C8: while the accumulated bytes are only a strict prefix of a
valid frame, every `receive` returns normally, enqueues nothing
(`canRead` stays false), and the buffer equals the concatenation of all
bytes received so far; in particular a buffer without any NUL is always
just accumulated unchanged. -/
theorem claim_C8 :
    (∀ (p : Parser) (c : B), NUL ∉ p.s ++ c →
        receive p c = .ok ⟨p.s ++ c, p.frames, p.frame_eof⟩)
    ∧ (∀ (F : B) (f : Frame) (chunks : List B) (rest : B),
        receive emptyParser F = .ok ⟨[], [f], none⟩ →
        chunks.join ++ rest = F → rest ≠ [] →
        receiveList emptyParser chunks = .ok ⟨chunks.join, [], none⟩
          ∧ can_read ⟨chunks.join, [], none⟩ = false) := by
  have nonul : ∀ (p : Parser) (c : B), NUL ∉ p.s ++ c →
      receive p c = .ok ⟨p.s ++ c, p.frames, p.frame_eof⟩ := by
    intro p c h
    have hn : pyFind NUL (p.s ++ c) = none := pyFind_eq_none_iff.mpr h
    show run { p with s := p.s ++ c } = _
    rw [run_step_false (tryParse_nonul (p := { p with s := p.s ++ c }) hn)]
  refine ⟨nonul, ?_⟩
  intro F f chunks rest hF hsplit hrest
  obtain ⟨n, e, lines, cmd, hlines, hs, cl, hn, hlen, _⟩ := valid_inv hF
  have hPlen : chunks.join.length ≤ n := by
    have h1 : chunks.join.length + rest.length = F.length := by
      rw [← hsplit]
      simp
    have h2 : 0 < rest.length := List.length_pos.mpr hrest
    omega
  have hnul : NUL ∉ chunks.join := by
    have hJ : chunks.join = F.take chunks.join.length := by
      rw [← hsplit, List.take_left]
    rw [hJ]
    exact pyFind_take_not_mem hn _ hPlen
  have hrl : receiveList emptyParser chunks = receive emptyParser chunks.join :=
    receiveList_join chunks emptyParser (by decide)
  have hrec : receive emptyParser chunks.join = .ok ⟨chunks.join, [], none⟩ := by
    have h0 := nonul emptyParser chunks.join (by simpa [emptyParser] using hnul)
    simpa [emptyParser] using h0
  exact ⟨hrl.trans hrec, by simp [can_read]⟩

/-- Witness for C8: two single-byte chunks of a strict prefix of a
valid frame accumulate silently. -/
theorem claim_C8_witness :
    receiveList emptyParser [['C'], ['M']] = .ok ⟨([['C'], ['M']] : List B).join, [], none⟩
    ∧ can_read ⟨([['C'], ['M']] : List B).join, [], none⟩ = false :=
  claim_C8.2 demoWire demoFrame [['C'], ['M']] "D\n\n\x00".toList
    (by decide) (by decide) (by decide)

/-!  ## Shifting the boundary scanner across a prefix -/

theorem getElem?_append_off (P T : B) (i : Nat) : (P ++ T)[P.length + i]? = T[i]? := by
  rw [List.getElem?_append, if_neg (by omega)]
  congr 1
  omega

theorem eolAt_shift (P T : B) (i stop : Nat) :
    eolAt (P ++ T) (P.length + i) (P.length + stop) = (eolAt T i stop).map (P.length + ·) := by
  unfold eolAt
  by_cases hi : i < stop
  · rw [if_pos (show P.length + i < P.length + stop by omega), if_pos hi,
      getElem?_append_off]
    cases ht : T[i]? with
    | none => rfl
    | some c =>
      simp only []
      by_cases hc1 : c = '\n'
      · simp [hc1, Nat.add_assoc]
      · by_cases hc2 : c = '\r'
        · simp only [if_neg hc1, if_pos hc2]
          by_cases hi1 : i + 1 < stop
          · rw [if_pos (show P.length + i + 1 < P.length + stop by omega), if_pos hi1,
              show P.length + i + 1 = P.length + (i + 1) from by omega, getElem?_append_off]
            cases ht1 : T[i+1]? with
            | none => rfl
            | some c2 =>
              simp only []
              by_cases hc3 : c2 = '\n' <;> simp [hc3, Nat.add_assoc]
          · rw [if_neg (show ¬ P.length + i + 1 < P.length + stop by omega), if_neg hi1]
            rfl
        · simp [hc1, hc2]
  · rw [if_neg (show ¬ P.length + i < P.length + stop by omega), if_neg hi]
    rfl

theorem eol2At_shift (P T : B) (i stop : Nat) :
    eol2At (P ++ T) (P.length + i) (P.length + stop) = (eol2At T i stop).map (P.length + ·) := by
  unfold eol2At
  rw [eolAt_shift]
  cases h1 : eolAt T i stop with
  | none => rfl
  | some j =>
    simp only [Option.map_some', Option.some_bind]
    rw [eolAt_shift]

theorem findEol2Go_shift (P T : B) (stop : Nat) :
    ∀ (fuel i : Nat),
      findEol2Go (P ++ T) (P.length + stop) fuel (P.length + i)
        = (findEol2Go T stop fuel i).map fun pr => (P.length + pr.1, P.length + pr.2) := by
  intro fuel
  induction fuel with
  | zero => intro i; rfl
  | succ fuel ih =>
    intro i
    unfold findEol2Go
    rw [eol2At_shift]
    cases h : eol2At T i stop with
    | some j => simp
    | none =>
      simp only [Option.map_none']
      rw [show P.length + i + 1 = P.length + (i + 1) from by omega]
      exact ih (i + 1)

theorem findEol2_shift (P T : B) (i stop : Nat) :
    findEol2 (P ++ T) (P.length + i) (P.length + stop)
      = (findEol2 T i stop).map fun pr => (P.length + pr.1, P.length + pr.2) := by
  unfold findEol2
  rw [show P.length + stop - (P.length + i) = stop - i from by omega]
  exact findEol2Go_shift P T stop _ i

theorem take_all_of_len_le {l : B} {n : Nat} (h : l.length ≤ n) : l.take n = l :=
  List.take_of_length_le h

theorem slice_shift (P T : B) (m st : Nat) :
    ((P ++ T).take (P.length + m)).drop (P.length + st) = (T.take m).drop st := by
  rw [List.take_append_eq_append_take, take_all_of_len_le (by omega),
    show P.length + m - P.length = m from by omega,
    drop_append_ge (by omega),
    show P.length + st - P.length = st from by omega]

theorem splitFrameGo_shift_pos (P T : B) (stop : Nat) :
    ∀ (fuel start e : Nat) (lines : List B), 0 < e →
      splitFrameGo T stop fuel start = (e, lines) →
      splitFrameGo (P ++ T) (P.length + stop) fuel (P.length + start)
        = (P.length + e, lines) := by
  intro fuel
  induction fuel with
  | zero =>
    intro start e lines he h
    cases h
    omega
  | succ fuel ih =>
    intro start e lines he h
    unfold splitFrameGo at h ⊢
    rw [findEol2_shift]
    cases hf : findEol2 T start stop with
    | none =>
      rw [hf] at h
      cases h
      omega
    | some pr =>
      obtain ⟨ms, me⟩ := pr
      simp only [hf, Option.map_some'] at h ⊢
      by_cases hst : start = ms
      · rw [if_pos hst] at h
        rw [if_pos (show P.length + start = P.length + ms by omega)]
        exact ih me e lines he h
      · rw [if_neg hst] at h
        rw [if_neg (show ¬ P.length + start = P.length + ms by omega), slice_shift]
        cases h
        rfl

/-!  ## Blank-line markers before a frame -/

theorem marker_no_nul {m : B} (hm : isEolMarker m) : NUL ∉ m := by
  rcases hm with rfl | rfl <;> decide

theorem eolAt_marker {m : B} (hm : isEolMarker m) (T : B) {stop : Nat}
    (h : m.length ≤ stop) :
    eolAt (m ++ T) 0 stop = some m.length := by
  rcases hm with rfl | rfl
  · show eolAt ('\n' :: T) 0 stop = some 1
    have h1 : 0 < stop := by simp at h; omega
    simp [eolAt, h1]
  · show eolAt ('\r' :: '\n' :: T) 0 stop = some 2
    have h2 : 2 ≤ stop := by simpa using h
    simp [eolAt, show 0 < stop by omega, show 0 + 1 < stop by omega]

theorem eolAt_at_head_none {T : B} {c : Char} (hhead : T.head? = some c)
    (hc1 : c ≠ '\n') (hc2 : c ≠ '\r') (P : B) {stop : Nat} :
    eolAt (P ++ T) P.length stop = none := by
  unfold eolAt
  by_cases hi : P.length < stop
  · rw [if_pos hi]
    have hg : (P ++ T)[P.length]? = some c := by
      rw [show P.length = P.length + 0 from rfl, getElem?_append_off,
        ← List.head?_eq_getElem?]
      exact hhead
    rw [hg]
    simp only [if_neg hc1, if_neg hc2]
  · rw [if_neg hi]

theorem eol2At_marker_head_none {m : B} (hm : isEolMarker m) {T : B} {c : Char}
    (hhead : T.head? = some c) (hc1 : c ≠ '\n') (hc2 : c ≠ '\r') {stop : Nat} :
    eol2At (m ++ T) 0 stop = none := by
  by_cases hms : m.length ≤ stop
  · unfold eol2At
    rw [eolAt_marker hm T hms]
    show eolAt (m ++ T) m.length stop = none
    exact eolAt_at_head_none hhead hc1 hc2 m
  · have h0 : eolAt (m ++ T) 0 stop = none := by
      rcases hm with rfl | rfl
      · have : stop = 0 := by simp at hms; omega
        subst this
        simp [eolAt]
      · have hle : stop ≤ 1 := by simp at hms; omega
        interval_cases stop
        · simp [eolAt]
        · show eolAt ('\r' :: '\n' :: T) 0 1 = none
          simp [eolAt]
    unfold eol2At
    rw [h0]
    rfl

theorem eol2At_rn_one {T : B} {c : Char} (hhead : T.head? = some c)
    (hc1 : c ≠ '\n') (hc2 : c ≠ '\r') {stop : Nat} (hst : 2 ≤ stop) :
    eol2At (['\r', '\n'] ++ T) 1 stop = none := by
  unfold eol2At
  have hA : (['\r', '\n'] : B) ++ T = '\r' :: '\n' :: T := rfl
  have h1 : eolAt ('\r' :: '\n' :: T) 1 stop = some 2 := by
    simp [eolAt, show 1 < stop by omega]
  rw [hA, h1]
  show eolAt (['\r', '\n'] ++ T) 2 stop = none
  exact eolAt_at_head_none hhead hc1 hc2 ['\r', '\n']

theorem eol2At_two {m1 m2 : B} (h1 : isEolMarker m1) (h2 : isEolMarker m2) (T : B)
    {stop : Nat} (hst : m1.length + m2.length ≤ stop) :
    eol2At ((m1 ++ m2) ++ T) 0 stop = some (m1.length + m2.length) := by
  have hm1 : 1 ≤ m1.length := by rcases h1 with rfl | rfl <;> simp
  have hm2 : 1 ≤ m2.length := by rcases h2 with rfl | rfl <;> simp
  unfold eol2At
  rw [List.append_assoc, eolAt_marker h1 (m2 ++ T) (by omega)]
  show eolAt (m1 ++ (m2 ++ T)) m1.length stop = some (m1.length + m2.length)
  have hsh := eolAt_shift m1 (m2 ++ T) 0 (stop - m1.length)
  rw [eolAt_marker h2 T (by omega)] at hsh
  rw [show m1.length + 0 = m1.length from rfl,
    show m1.length + (stop - m1.length) = stop from by omega] at hsh
  simpa using hsh

theorem findEol2_at_start {s : B} {stop j : Nat} (h : eol2At s 0 stop = some j)
    (h0 : 0 < stop) : findEol2 s 0 stop = some (0, j) := by
  unfold findEol2
  obtain ⟨st', rfl⟩ : ∃ st', stop = st' + 1 := ⟨stop - 1, by omega⟩
  show findEol2Go s (st' + 1) (st' + 1 - 0) 0 = some (0, j)
  rw [show st' + 1 - 0 = st' + 1 from rfl]
  unfold findEol2Go
  rw [h]

theorem findEol2Go_step_none {s : B} {stop fuel i : Nat} (h : eol2At s i stop = none) :
    findEol2Go s stop (fuel + 1) i = findEol2Go s stop fuel (i + 1) := by
  show (match eol2At s i stop with
        | some j => some (i, j)
        | none => findEol2Go s stop fuel (i + 1)) = findEol2Go s stop fuel (i + 1)
  rw [h]

theorem findEol2_marker {m : B} (hm : isEolMarker m) {T : B} {c : Char}
    (hhead : T.head? = some c) (hc1 : c ≠ '\n') (hc2 : c ≠ '\r') (stopF : Nat) :
    findEol2 (m ++ T) 0 (m.length + stopF)
      = (findEol2 T 0 stopF).map fun pr => (m.length + pr.1, m.length + pr.2) := by
  have hshift := findEol2Go_shift m T stopF stopF 0
  rw [show m.length + 0 = m.length from rfl] at hshift
  have hfe : findEol2 T 0 stopF = findEol2Go T stopF stopF 0 := by
    unfold findEol2
    rw [show stopF - 0 = stopF from rfl]
  rcases hm with rfl | rfl
  · have hshift1 : findEol2Go ('\n' :: T) (1 + stopF) stopF 1
        = (findEol2Go T stopF stopF 0).map fun pr => (1 + pr.1, 1 + pr.2) := hshift
    have step0 : eol2At ('\n' :: T) 0 (1 + stopF) = none := by
      have h : eol2At (['\n'] ++ T) 0 (1 + stopF) = none :=
        eol2At_marker_head_none (Or.inl rfl) hhead hc1 hc2
      exact h
    show findEol2Go ('\n' :: T) (1 + stopF) (1 + stopF - 0) 0
      = (findEol2 T 0 stopF).map fun pr => (1 + pr.1, 1 + pr.2)
    rw [show 1 + stopF - 0 = stopF + 1 from by omega]
    rw [findEol2Go_step_none step0]
    rw [hfe]
    rw [show (0 : Nat) + 1 = 1 from rfl]
    exact hshift1
  · have hshift2 : findEol2Go ('\r' :: '\n' :: T) (2 + stopF) stopF 2
        = (findEol2Go T stopF stopF 0).map fun pr => (2 + pr.1, 2 + pr.2) := hshift
    have step0 : eol2At ('\r' :: '\n' :: T) 0 (2 + stopF) = none := by
      have h : eol2At (['\r', '\n'] ++ T) 0 (2 + stopF) = none :=
        eol2At_marker_head_none (Or.inr rfl) hhead hc1 hc2
      exact h
    have step1 : eol2At ('\r' :: '\n' :: T) 1 (2 + stopF) = none := by
      have h : eol2At (['\r', '\n'] ++ T) 1 (2 + stopF) = none :=
        eol2At_rn_one hhead hc1 hc2 (by omega)
      exact h
    show findEol2Go ('\r' :: '\n' :: T) (2 + stopF) (2 + stopF - 0) 0
      = (findEol2 T 0 stopF).map fun pr => (2 + pr.1, 2 + pr.2)
    rw [show 2 + stopF - 0 = (stopF + 1) + 1 from by omega]
    rw [findEol2Go_step_none step0]
    rw [show (0 : Nat) + 1 = 1 from rfl]
    rw [findEol2Go_step_none step1]
    rw [hfe]
    rw [show (1 : Nat) + 1 = 2 from rfl]
    exact hshift2

/-!  ## The shape of `splitlines` -/

theorem splitlinesGo_shape : ∀ (X acc : B), ∃ l r, splitlinesGo acc X = (acc.reverse ++ l) :: r := by
  have main : ∀ (L : Nat) (X acc : B), X.length ≤ L →
      ∃ l r, splitlinesGo acc X = (acc.reverse ++ l) :: r := by
    intro L
    induction L using Nat.strong_induction_on with
    | _ L ih =>
      intro X acc hX
      cases X with
      | nil => exact ⟨[], [], by simp [splitlinesGo]⟩
      | cons c rest =>
        by_cases hc1 : c = '\n'
        · subst hc1
          cases rest with
          | nil => exact ⟨[], [], by simp [splitlinesGo]⟩
          | cons d rest' =>
            exact ⟨[], splitlinesGo [] (d :: rest'), by simp [splitlinesGo]⟩
        · by_cases hc2 : c = '\r'
          · subst hc2
            cases rest with
            | nil => exact ⟨[], [], by simp [splitlinesGo]⟩
            | cons d rest' =>
              by_cases hd : d = '\n'
              · subst hd
                cases rest' with
                | nil => exact ⟨[], [], by simp [splitlinesGo]⟩
                | cons d2 rest'' =>
                  exact ⟨[], splitlinesGo [] (d2 :: rest''), by simp [splitlinesGo]⟩
              · exact ⟨[], splitlinesGo [] (d :: rest'), by simp [splitlinesGo, hd]⟩
          · have hstep : splitlinesGo acc (c :: rest) = splitlinesGo (c :: acc) rest := by
              simp [splitlinesGo, hc1, hc2]
            have hlt : rest.length < L := by simp at hX; omega
            obtain ⟨l, r, hlr⟩ := ih rest.length hlt rest (c :: acc) le_rfl
            exact ⟨[c] ++ l, r,
              by rw [hstep, hlr, List.reverse_cons, List.append_assoc]⟩
  intro X acc
  exact main X.length X acc le_rfl

theorem splitlines_head {c : Char} (hc1 : c ≠ '\n') (hc2 : c ≠ '\r') (X : B) :
    ∃ l r, splitlines (c :: X) = (c :: l) :: r := by
  obtain ⟨l, r, h⟩ := splitlinesGo_shape X [c]
  refine ⟨l, r, ?_⟩
  show splitlinesGo [] (c :: X) = _
  have hstep : splitlinesGo [] (c :: X) = splitlinesGo [c] X := by
    simp [splitlinesGo, hc1, hc2]
  rw [hstep, h]
  simp

theorem splitlines_marker {m : B} (hm : isEolMarker m) {X : B} (hX : X ≠ []) :
    splitlines (m ++ X) = [] :: splitlines X := by
  cases X with
  | nil => exact absurd rfl hX
  | cons d rest =>
    rcases hm with rfl | rfl
    · show splitlinesGo [] ('\n' :: d :: rest) = [] :: splitlinesGo [] (d :: rest)
      simp [splitlinesGo]
    · show splitlinesGo [] ('\r' :: '\n' :: d :: rest) = [] :: splitlinesGo [] (d :: rest)
      simp [splitlinesGo]

/-!  ## `split_frame` over a run of leading blank lines -/

theorem take_head_ne_nil {F : B} {c : Char} (hhead : F.head? = some c) {ms : Nat}
    (hms : 1 ≤ ms) : F.take ms ≠ [] := by
  cases F with
  | nil => simp at hhead
  | cons a t =>
    obtain ⟨ms', rfl⟩ : ∃ ms', ms = ms' + 1 := ⟨ms - 1, by omega⟩
    simp

theorem splitFrameGo_base {F : B} {stopF ms me fuel : Nat}
    (hf : findEol2 F 0 stopF = some (ms, me)) (hms : 1 ≤ ms) (hfuel : 1 ≤ fuel) :
    splitFrameGo F stopF fuel 0 = (me, splitlines (F.take ms)) := by
  obtain ⟨f', rfl⟩ : ∃ f', fuel = f' + 1 := ⟨fuel - 1, by omega⟩
  unfold splitFrameGo
  simp only [hf]
  rw [if_neg (show (0 : Nat) ≠ ms by omega), List.drop_zero]

theorem splitFrameGo_single {m : B} (hm : isEolMarker m) {F : B} {c : Char}
    {stopF ms me fuel : Nat}
    (hhead : F.head? = some c) (hc1 : c ≠ '\n') (hc2 : c ≠ '\r')
    (hf : findEol2 F 0 stopF = some (ms, me)) (hms : 1 ≤ ms)
    (hfuel : m.length + 1 ≤ fuel) :
    splitFrameGo (m ++ F) (m.length + stopF) fuel 0
      = (m.length + me, [] :: splitlines (F.take ms)) := by
  obtain ⟨f', rfl⟩ : ∃ f', fuel = f' + 1 := ⟨fuel - 1, by omega⟩
  have hfind : findEol2 (m ++ F) 0 (m.length + stopF)
      = some (m.length + ms, m.length + me) := by
    rw [findEol2_marker hm hhead hc1 hc2 stopF, hf]
    rfl
  have hm1 : 1 ≤ m.length := by rcases hm with rfl | rfl <;> simp
  unfold splitFrameGo
  simp only [hfind]
  rw [if_neg (show (0 : Nat) ≠ m.length + ms by omega), List.drop_zero,
    List.take_append_eq_append_take, take_all_of_len_le (by omega),
    show m.length + ms - m.length = ms from by omega,
    splitlines_marker hm (take_head_ne_nil hhead hms)]

theorem splitFrameGo_run :
    ∀ (K : Nat) (markers : List B), markers.length ≤ K →
      (∀ m ∈ markers, isEolMarker m) →
      ∀ (F : B) (c : Char) (stopF ms me fuel : Nat),
        F.head? = some c → c ≠ '\n' → c ≠ '\r' →
        findEol2 F 0 stopF = some (ms, me) → 1 ≤ ms →
        markers.join.length + 1 ≤ fuel →
        splitFrameGo (markers.join ++ F) (markers.join.length + stopF) fuel 0
          = (markers.join.length + me,
             if markers.length % 2 = 1 then [] :: splitlines (F.take ms)
             else splitlines (F.take ms)) := by
  intro K
  induction K with
  | zero =>
    intro markers hK hmk F c stopF ms me fuel hhead hc1 hc2 hf hms hfuel
    have hmn : markers = [] := List.eq_nil_of_length_eq_zero (by omega)
    subst hmn
    simp only [List.join_nil, List.nil_append, List.length_nil, Nat.zero_add] at hfuel ⊢
    rw [if_neg (by decide)]
    exact splitFrameGo_base hf hms (by omega)
  | succ K ih =>
    intro markers hK hmk F c stopF ms me fuel hhead hc1 hc2 hf hms hfuel
    cases markers with
    | nil =>
      simp only [List.join_nil, List.nil_append, List.length_nil, Nat.zero_add] at hfuel ⊢
      rw [if_neg (by decide)]
      exact splitFrameGo_base hf hms (by omega)
    | cons m1 rest1 =>
      cases rest1 with
      | nil =>
        have hm1 : isEolMarker m1 := hmk m1 (by simp)
        simp only [List.join_cons, List.join_nil, List.append_nil,
          List.length_cons, List.length_nil] at hfuel ⊢
        rw [if_pos (by decide)]
        exact splitFrameGo_single hm1 hhead hc1 hc2 hf hms hfuel
      | cons m2 rest =>
        have hm1 : isEolMarker m1 := hmk m1 (by simp)
        have hm2 : isEolMarker m2 := hmk m2 (by simp)
        have hmr : ∀ m ∈ rest, isEolMarker m := fun m hmem => hmk m (by simp [hmem])
        have hl1 : 1 ≤ m1.length := by rcases hm1 with rfl | rfl <;> simp
        have hl2 : 1 ≤ m2.length := by rcases hm2 with rfl | rfl <;> simp
        simp only [List.join_cons] at hfuel ⊢
        have hLfuel : (m1 ++ (m2 ++ rest.join)).length
            = m1.length + (m2.length + rest.join.length) := by
          rw [List.length_append, List.length_append]
        rw [hLfuel] at hfuel
        obtain ⟨f', rfl⟩ : ∃ f', fuel = f' + 1 := ⟨fuel - 1, by omega⟩
        have hrest := ih rest (by simp at hK; omega) hmr F c stopF ms me f' hhead hc1 hc2
          hf hms (by omega)
        have hme : 0 < me := by
          have := findEol2_bounds hf
          omega
        have hbuf : (m1 ++ (m2 ++ rest.join)) ++ F = (m1 ++ m2) ++ (rest.join ++ F) := by
          simp [List.append_assoc]
        have hstop : (m1 ++ (m2 ++ rest.join)).length + stopF
            = (m1 ++ m2).length + (rest.join.length + stopF) := by
          rw [hLfuel, List.length_append]
          omega
        rw [hbuf, hstop]
        have hfind : findEol2 ((m1 ++ m2) ++ (rest.join ++ F)) 0
            ((m1 ++ m2).length + (rest.join.length + stopF))
            = some (0, m1.length + m2.length) := by
          apply findEol2_at_start
          · exact eol2At_two hm1 hm2 (rest.join ++ F) (by rw [List.length_append]; omega)
          · rw [List.length_append]
            omega
        unfold splitFrameGo
        simp only [hfind]
        rw [if_pos trivial]
        have hres := splitFrameGo_shift_pos (m1 ++ m2) (rest.join ++ F)
          (rest.join.length + stopF) f' 0 (rest.join.length + me) _ (by omega) hrest
        rw [show (m1 ++ m2).length + 0 = m1.length + m2.length from by
          simp [List.length_append]] at hres
        rw [hres]
        have hpar : (m1 :: m2 :: rest).length % 2 = rest.length % 2 := by
          simp [List.length_cons]
          omega
        rw [hpar]
        have hval : (m1 ++ m2).length + (rest.join.length + me)
            = (m1 ++ (m2 ++ rest.join)).length + me := by
          simp [List.length_append]
          omega
        rw [hval]

theorem split_frame_of_head {F : B} {c : Char} {stop e : Nat} {lines : List B}
    (hhead : F.head? = some c) (hc1 : c ≠ '\n') (hc2 : c ≠ '\r')
    (hsp : split_frame F 0 stop = (e, lines)) (hne : lines ≠ []) :
    ∃ ms, findEol2 F 0 stop = some (ms, e) ∧ lines = splitlines (F.take ms) ∧ 1 ≤ ms := by
  unfold split_frame at hsp
  rw [show stop + 1 - 0 = stop + 1 from rfl] at hsp
  unfold splitFrameGo at hsp
  cases hfd : findEol2 F 0 stop with
  | none =>
    simp only [hfd] at hsp
    cases hsp
    exact absurd rfl hne
  | some pr =>
    obtain ⟨ms, me⟩ := pr
    simp only [hfd] at hsp
    by_cases hms0 : ms = 0
    · exfalso
      subst hms0
      have h0 : eol2At F 0 stop = some me := by
        have hfg : findEol2Go F stop (stop - 0) 0 = some (0, me) := hfd
        rw [show stop - 0 = stop from rfl] at hfg
        cases hstop : stop with
        | zero =>
          subst hstop
          cases hfg
        | succ st =>
          subst hstop
          unfold findEol2Go at hfg
          cases he2 : eol2At F 0 (st + 1) with
          | some j =>
            simp only [he2] at hfg
            simp only [Option.some.injEq, Prod.mk.injEq] at hfg
            obtain ⟨-, rfl⟩ := hfg
            rfl
          | none =>
            simp only [he2] at hfg
            have := findEol2Go_bounds hfg
            omega
      cases F with
      | nil => simp at hhead
      | cons a t =>
        have hac : a = c := by simpa using hhead
        subst hac
        have heol : eolAt (a :: t) 0 stop = none := by
          unfold eolAt
          by_cases h0s : 0 < stop
          · rw [if_pos h0s]
            simp only [List.getElem?_cons_zero]
            rw [if_neg hc1, if_neg hc2]
          · rw [if_neg h0s]
        unfold eol2At at h0
        rw [heol] at h0
        cases h0
    · rw [if_neg (show (0 : Nat) ≠ ms from fun hh => hms0 hh.symm), List.drop_zero] at hsp
      cases hsp
      exact ⟨ms, rfl, rfl, by omega⟩

/-!  ## Heartbeats before a valid frame are skipped -/

theorem heartbeat_q (markers : List B) (q : List Frame) {F : B} {f : Frame} {c : Char}
    (hmk : ∀ m ∈ markers, isEolMarker m)
    (hhead : F.head? = some c) (hc1 : c ≠ '\n') (hc2 : c ≠ '\r')
    (hF : receive emptyParser F = .ok ⟨[], [f], none⟩) :
    receive ⟨[], q, none⟩ (markers.join ++ F) = .ok ⟨[], q ++ [f], none⟩ := by
  obtain ⟨n, e, lines, cmd, hlines, hs, cl, hn, hlen, hsp, hcmd, hph, hint, hcl, hfe⟩ :=
    valid_inv hF
  have hlinesne : lines ≠ [] := by
    intro hh
    rw [hh] at hcmd
    cases hcmd
  obtain ⟨ms, hfind, hlineseq, hms⟩ := split_frame_of_head hhead hc1 hc2 hsp hlinesne
  have hRnul : pyFind NUL markers.join = none := by
    rw [pyFind_eq_none_iff]
    intro hmem
    obtain ⟨m, hmm, hmem2⟩ := List.mem_join.mp hmem
    exact marker_no_nul (hmk m hmm) hmem2
  have hn' : pyFind NUL (markers.join ++ F) = some (markers.join.length + n) := by
    rw [pyFind_append_none hRnul, hn]
    simp [Nat.add_comm]
  have hsplit' : split_frame (markers.join ++ F) 0 (markers.join.length + n)
      = (markers.join.length + e,
         if markers.length % 2 = 1 then [] :: lines else lines) := by
    show splitFrameGo (markers.join ++ F) (markers.join.length + n)
      (markers.join.length + n + 1 - 0) 0 = _
    rw [show markers.join.length + n + 1 - 0 = markers.join.length + n + 1 from rfl]
    rw [splitFrameGo_run markers.length markers le_rfl hmk F c n ms e
      (markers.join.length + n + 1) hhead hc1 hc2 hfind hms (by omega)]
    rw [← hlineseq]
  have hcmd' : extractCmd (if markers.length % 2 = 1 then [] :: lines else lines)
      = some (cmd, hlines) := by
    by_cases hpar : markers.length % 2 = 1
    · rw [if_pos hpar]
      cases F with
      | nil => simp at hhead
      | cons a t =>
        have hac : a = c := by simpa using hhead
        subst hac
        obtain ⟨ms', rfl⟩ : ∃ ms', ms = ms' + 1 := ⟨ms - 1, by omega⟩
        obtain ⟨l, r, hsl⟩ := splitlines_head hc1 hc2 (t.take ms')
        rw [show (a :: t).take (ms' + 1) = a :: t.take ms' from rfl, hsl] at hlineseq
        subst hlineseq
        simp only [extractCmd, if_pos rfl] at hcmd ⊢
        simp only [if_neg (show ¬ (a :: l) = [] by simp)] at hcmd
        exact hcmd
    · rw [if_neg hpar]
      exact hcmd
  have htp : tryParse ⟨markers.join ++ F, q, none⟩ = .ok (⟨[], q ++ [f], none⟩, true) := by
    have hcl' : cl = 0 ∨ ((markers.join.length + e : Nat) : Int) + cl
        = ((markers.join.length + n : Nat) : Int) := by
      rcases hcl with h0 | he
      · exact .inl h0
      · right
        push_cast
        omega
    have hstep := tryParse_success (p := ⟨markers.join ++ F, q, none⟩) hn' rfl
      hsplit' hcmd' hph hint hcl'
    rw [hstep]
    have hd : (markers.join ++ F).drop (markers.join.length + n + 1) = [] := by
      rw [drop_append_ge (by omega),
        show markers.join.length + n + 1 - markers.join.length = n + 1 from by omega]
      exact List.drop_eq_nil_of_le (by omega)
    have hb : ((markers.join ++ F).take (markers.join.length + n)).drop
        (markers.join.length + e) = (F.take n).drop e := slice_shift markers.join F n e
    have hstate : (⟨(markers.join ++ F).drop (markers.join.length + n + 1),
        q ++ [⟨cmd, hs, ((markers.join ++ F).take (markers.join.length + n)).drop
          (markers.join.length + e)⟩], none⟩ : Parser) = ⟨[], q ++ [f], none⟩ := by
      rw [hd, hb, hfe]
    exact congrArg (fun st => Except.ok (st, true)) hstate
  show run ⟨markers.join ++ F, q, none⟩ = _
  rw [run_step_true htp]
  exact run_step_false (tryParse_nonul (p := ⟨[], q ++ [f], none⟩) rfl)

/-!  ## Claim C5: heartbeat tolerance -/

/-- Claim C5: any run of blank lines (`\n` or `\r\n` markers in any mix,
odd counts included) prepended to a valid frame's bytes parses to the
identical Frame, and blank lines trailing one frame's terminator do not
alter the parse of the next frame. -/
theorem claim_C5 :
    (∀ (markers : List B) (F : B) (f : Frame) (c : Char),
        (∀ m ∈ markers, isEolMarker m) →
        F.head? = some c → c ≠ '\n' → c ≠ '\r' →
        receive emptyParser F = .ok ⟨[], [f], none⟩ →
        receive emptyParser (markers.join ++ F) = .ok ⟨[], [f], none⟩)
    ∧ (∀ (markers : List B) (F1 F2 : B) (f1 f2 : Frame) (c2 : Char),
        (∀ m ∈ markers, isEolMarker m) →
        F2.head? = some c2 → c2 ≠ '\n' → c2 ≠ '\r' →
        receive emptyParser F1 = .ok ⟨[], [f1], none⟩ →
        receive emptyParser F2 = .ok ⟨[], [f2], none⟩ →
        receive emptyParser (F1 ++ (markers.join ++ F2)) = .ok ⟨[], [f1, f2], none⟩
          ∧ receive emptyParser (F1 ++ F2) = .ok ⟨[], [f1, f2], none⟩) := by
  constructor
  · intro markers F f c hmk hhead hc1 hc2 hF
    exact heartbeat_q markers [] hmk hhead hc1 hc2 hF
  · intro markers F1 F2 f1 f2 c2 hmk hhead hc1 hc2 hF1 hF2
    constructor
    · rw [receive_append, hF1]
      exact heartbeat_q markers [f1] hmk hhead hc1 hc2 hF2
    · rw [receive_append, hF1]
      have h := heartbeat_q [] [f1] (by simp) hhead hc1 hc2 hF2
      simpa using h

/-- Witness for C5 at an odd, mixed run of three blank lines before a
concrete frame. -/
theorem claim_C5_witness :
    receive emptyParser (([['\n'], ['\r', '\n'], ['\n']] : List B).join ++ demoWire)
      = .ok ⟨[], [demoFrame], none⟩ :=
  claim_C5.1 [['\n'], ['\r', '\n'], ['\n']] demoWire demoFrame 'C'
    (by decide) (by decide) (by decide) (by decide) (by decide)

end Tinystomp
